import Mathlib

/-!
# Verification of the valstats rating engine (src/valstats.py)

This file gives a shallow embedding of the rating engine of `valstats.py`:
weapon lookups (`get_weapon`, `get_main_weapon`), the duel rating-gain
calculator (`elo_gain_for_match_for_user`), the per-tier bias aggregator
(`_calibration_score`, `_score_all_tiers`), the nudge-with-repair step
(`_adjust_elo`) and the calibration search (`calibrate_elo`), together with
proofs about them.

Modelling conventions:
* Python dicts whose iteration order matters are modelled as association
  lists in insertion order.
* Fallible operations (`next(iter(...))` raising `StopIteration`, indexing
  an empty list raising `IndexError`, arithmetic on `None`, the infinite
  recursion of `get_weapon` on reference data lacking a "Vandal" entry)
  are modelled in the `Option` monad, `none` meaning the Python evaluation
  raises or diverges.
* The in-place mutation `kill['victim'] = kill['victim_puuid']` is
  modelled by explicit state passing: the calculator returns the rewritten
  kill list alongside the rating delta.
* Machine floats of the Python code are modelled as `Rat`.
* The `elo` module is imported by `valstats.py` but is not part of the
  sources under verification.  Its `expected` function is kept as an
  explicit function parameter `e : Int → Int → Rat` of every definition
  that uses it, and `elo.elo` is modelled from the spec (see `elo_elo`).
-/

/-- Python `str.lower` (ASCII behaviour, which covers the identifiers used). -/
def pyLower (s : String) : String := String.mk (s.data.map Char.toLower)

/-- Python `abs` on rationals. -/
def pyAbs (q : Rat) : Rat := if q < 0 then -q else q

/-- Helper for `pyTitle`: uppercase a letter that follows a non-letter,
lowercase every other letter. -/
def pyTitleAux : List Char → Bool → List Char
  | [], _ => []
  | c :: rest, prevAlpha =>
    (if c.isAlpha && !prevAlpha then c.toUpper else c.toLower) ::
      pyTitleAux rest c.isAlpha

/-- Python `str.title` (ASCII behaviour): capitalise the first letter of every
alphabetical run, lowercase the rest. -/
def pyTitle (s : String) : String := String.mk (pyTitleAux s.data false)

/-- A weapon record of the reference data (only the fields the engine reads). -/
structure Weapon where
  uuid : String
  displayName : String
deriving DecidableEq, Repr

/-- `get_weapon` of valstats.py.  Looks a weapon up by display name (after
`str.title`) or by uuid (after `str.lower`); on a miss it retries with
`name='vandal'`.  The retry is unfolded once: if the reference data has no
weapon named "Vandal" the Python function recurses forever, modelled as
`none`.  Calling it with neither a name nor a uuid crashes in Python
(`None.lower()`), also modelled as `none`. -/
def get_weapon (W : List Weapon) (name : Option String) (uuid : Option String) :
    Option Weapon :=
  match name, uuid with
  | some n, _ =>
    match W.find? (fun w => w.displayName == pyTitle n) with
    | some w => some w
    | none => W.find? (fun w => w.displayName == "Vandal")
  | none, some u =>
    match W.find? (fun w => w.uuid == pyLower u) with
    | some w => some w
    | none => W.find? (fun w => w.displayName == "Vandal")
  | none, none => none

/-- A player entry of a match record.  `competitiveTier = none` models an
absent `competitiveTier` key (`p.get('competitiveTier')` is `None`). -/
structure Player where
  subject : String
  competitiveTier : Option Int
deriving DecidableEq, Repr

/-- A kill event of a match record.  `victim = none` models a record lacking
the `victim` key (the calculator then copies it from `victim_puuid`,
mutating the record).  `damageItem` is `finishingDamage.damageItem`. -/
structure Kill where
  killer : String
  victim : Option String
  victim_puuid : String
  damageItem : String
deriving DecidableEq, Repr

/-- A match record (the fields the rating engine reads). -/
structure MatchRec where
  queueID : String
  gameStartMillis : Int
  players : List Player
  kills : List Kill
deriving DecidableEq, Repr

/-- The Python dict counting kills per weapon id, in insertion order.
`bump` is `if not weapons.get(w): weapons[w] = 0` followed by
`weapons[w] += 1` (a stored count is never 0, hence never falsy). -/
def bump (l : List (String × Nat)) (w : String) : List (String × Nat) :=
  match l.find? (fun p => p.1 == w) with
  | some _ => l.map (fun p => if p.1 == w then (p.1, p.2 + 1) else p)
  | none => l ++ [(w, 1)]

/-- One comparison step of Python's `max`: keep the incumbent unless the
challenger is strictly greater. -/
def pick (best y : String × Nat) : String × Nat :=
  if y.2 > best.2 then y else best

/-- `max(weapons, key=weapons.get)`: the first key, in dict iteration order,
whose count attains the maximum (Python's `max` keeps the earlier element
on ties). -/
def pyMaxCountKey : List (String × Nat) → Option String
  | [] => none
  | x :: rest => some (rest.foldl pick x).1

/-- `get_main_weapon` of valstats.py: count the player's kills per weapon id,
return "Unknown" when there are none, otherwise the display name of the
first weapon id attaining the maximal count. -/
def get_main_weapon (W : List Weapon) (m : MatchRec) (user : String) :
    Option String :=
  let user_kills := m.kills.filter (fun k => k.killer == user)
  let weapons := user_kills.foldl (fun acc k => bump acc k.damageItem) []
  match weapons with
  | [] => some "Unknown"
  | _ =>
    match pyMaxCountKey weapons with
    | none => none
    | some mw => (get_weapon W none (some mw)).map (fun w => w.displayName)

/-- `is_unranked` of valstats.py: `tier is None or tier == 0`. -/
def is_unranked (tier : Option Int) : Bool :=
  tier.isNone || tier == some 0

/-- A rating table.  The Python dict `global_elo_map` and every table derived
from it has exactly the keys `3..27`; the table is modelled as a total
function together with the fixed key domain (`tierDomain`). -/
abbrev EloMap : Type := Int → Int

/-- `MIN_TIER` of `_adjust_elo` (`min(global_elo_map.keys())`). -/
def MIN_TIER : Int := 3

/-- `MAX_TIER` of `_adjust_elo` (`max(global_elo_map.keys())`). -/
def MAX_TIER : Int := 27

/-- The key set of every rating table in play, in Python iteration order. -/
def tierDomain : List Int :=
  [3, 4, 5, 6, 7, 8, 9, 10, 11, 12, 13, 14, 15, 16, 17, 18, 19, 20,
   21, 22, 23, 24, 25, 26, 27]

/-- `get_tier_elo` of valstats.py: `elo_map.get(tier)`, `None` outside the
key domain. -/
def get_tier_elo (tier : Int) (m : EloMap) : Option Int :=
  if MIN_TIER ≤ tier ∧ tier ≤ MAX_TIER then some (m tier) else none

/-- The seed pairs of `global_elo_map`. -/
def global_pairs : List (Int × Int) :=
  [(3, 1040), (4, 1051), (5, 1093), (6, 1099), (7, 1104), (8, 1109),
   (9, 1140), (10, 1157), (11, 1166), (12, 1174), (13, 1179), (14, 1184),
   (15, 1190), (16, 1195), (17, 1201), (18, 1206), (19, 1211), (20, 1216),
   (21, 1221), (22, 1228), (23, 1243), (24, 1250), (25, 1255), (26, 1260),
   (27, 1280)]

/-- `global_elo_map` of valstats.py as a rating table. -/
def global_elo_map : EloMap := fun t =>
  ((global_pairs.find? (fun p => p.1 == t)).map (fun p => p.2)).getD 0

/-- `AVERAGE_TIER` of valstats.py. -/
def AVERAGE_TIER : Int := 12

/-- `LAST_RANK_CHANGE` of valstats.py:
`datetime.fromisoformat("2022-06-23T00:00:00+00:00").timestamp() * 1000`. -/
def LAST_RANK_CHANGE : Int := 1655942400000

/-- Modelled from the spec: `elo.elo` of the `elo` module imported by
valstats.py, which is not among the sources; the spec states
`new_rating = subject_rating + K * (actual - expected)`. -/
def elo_elo (rating expected actual k : Rat) : Rat :=
  rating + k * (actual - expected)

/-- One expected/actual accumulator bucket (`{'expected': .., 'actual': ..}`). -/
structure DuelAcc where
  exp : Rat
  act : Rat
deriving DecidableEq, Repr

/-- The per-weapon accumulator dict of the calculator, in insertion order. -/
abbrev Buckets : Type := List (String × DuelAcc)

/-- Dict lookup on the accumulator. -/
def bucket_get (b : Buckets) (w : String) : Option DuelAcc :=
  (b.find? (fun p => p.1 == w)).map (fun p => p.2)

/-- `if not match_elo_score.get(w): match_elo_score[w] = {'expected': 0,
'actual': 0}` — a present bucket is a non-empty dict, hence truthy, so only
an absent key is (re)initialised. -/
def bucket_ensure (b : Buckets) (w : String) : Buckets :=
  match b.find? (fun p => p.1 == w) with
  | some _ => b
  | none => b ++ [(w, ⟨0, 0⟩)]

/-- In-place update of one bucket. -/
def bucket_map (b : Buckets) (w : String) (f : DuelAcc → DuelAcc) : Buckets :=
  b.map (fun p => if p.1 == w then (p.1, f p.2) else p)

/-- The defensive rewrite at the top of the kill loop:
`if 'victim' not in kill: kill['victim'] = kill['victim_puuid']`. -/
def normalize_kill (k : Kill) : Kill :=
  if k.victim.isNone then { k with victim := some k.victim_puuid } else k

/-- The opponent of `user` in a (normalized) kill:
`next(iter(u for u in [victim, killer] if u != user_id and u is not None), None)`. -/
def opponentOf (k : Kill) (user : String) : Option String :=
  ([k.victim.getD "", k.killer].filter (fun u => u != user)).head?

/-- The body of the kill loop of `elo_gain_for_match_for_user` for one kill
event: normalize the kill, skip events not involving the subject or touching
the exclusion set, identify the opponent, restrict to pure same-main-weapon
duels, and accumulate expected (and, for subject kills, actual) scores.
Returns the updated buckets and the (possibly rewritten) kill, or `none`
when the Python code raises (`StopIteration` on a missing player entry,
arithmetic on a `None` rating). -/
def process_kill (W : List Weapon) (e : Int → Int → Rat) (m : MatchRec)
    (user : String) (emap : EloMap) (initO : Option Int) (excl : List String)
    (main_weapon : String) (b : Buckets) (k0 : Kill) :
    Option (Buckets × Kill) :=
  let k := normalize_kill k0
  let vic := k.victim.getD ""
  if k.killer ≠ user ∧ vic ≠ user then some (b, k)
  else if excl.contains k.killer ∨ excl.contains vic then some (b, k)
  else
    match opponentOf k user with
    | none => some (b, k)
    | some opp =>
      match get_main_weapon W m opp with
      | none => none
      | some omw =>
        match get_weapon W none (some k.damageItem) with
        | none => none
        | some kwrec =>
          let kw := kwrec.displayName
          if kw ≠ main_weapon ∨ omw ≠ main_weapon then some (b, k)
          else
            let b1 := bucket_ensure b kw
            let afterKiller : Option Buckets :=
              if k.killer == user then
                match m.players.find? (fun p => p.subject == vic) with
                | none => none
                | some victimP =>
                  if is_unranked victimP.competitiveTier then some b1
                  else
                    match victimP.competitiveTier with
                    | none => none
                    | some ot =>
                      match get_tier_elo ot emap, initO with
                      | some oe, some ie =>
                        some (bucket_map b1 kw
                          (fun a => ⟨a.exp + e ie oe, a.act + 1⟩))
                      | _, _ => none
              else some b1
            match afterKiller with
            | none => none
            | some b2 =>
              let afterVictim : Option Buckets :=
                if vic == user then
                  match m.players.find? (fun p => p.subject == k.killer) with
                  | none => none
                  | some killerP =>
                    if is_unranked killerP.competitiveTier then some b2
                    else
                      match killerP.competitiveTier with
                      | none => none
                      | some ot =>
                        match get_tier_elo ot emap, initO with
                        | some oe, some ie =>
                          some (bucket_map b2 kw
                            (fun a => ⟨a.exp + e ie oe, a.act⟩))
                        | _, _ => none
                else some b2
              match afterVictim with
              | none => none
              | some b3 => some (b3, k)

/-- The kill loop: fold `process_kill` over the kill list, collecting the
rewritten kills in order. -/
def run_kills (W : List Weapon) (e : Int → Int → Rat) (m : MatchRec)
    (user : String) (emap : EloMap) (initO : Option Int) (excl : List String)
    (main_weapon : String) : Buckets → List Kill → List Kill →
    Option (Buckets × List Kill)
  | b, done, [] => some (b, done)
  | b, done, k :: rest =>
    match process_kill W e m user emap initO excl main_weapon b k with
    | none => none
    | some (b2, k2) =>
      run_kills W e m user emap initO excl main_weapon b2 (done ++ [k2]) rest

/-- The initial accumulator `{'Unknown': {'expected': 0, 'actual': 0}}`. -/
def initBuckets : Buckets := [("Unknown", ⟨0, 0⟩)]

/-- `elo_gain_for_match_for_user` of valstats.py.  Returns the rating delta
together with the match as left behind by the kill loop (the kill records
may have gained a `victim` field).  `initO` is the subject's initial rating
(`None` is only fatal where Python would use it, i.e. in `elo.expected` or
in the final `elo.elo` call).  A present main-weapon bucket is a two-key
dict, so Python's `len(...) == 0` test is never true and is dropped. -/
def elo_gain_for_match_for_user (W : List Weapon) (e : Int → Int → Rat)
    (m : MatchRec) (user : String) (emap : EloMap) (initO : Option Int)
    (excl : List String) : Option (Rat × MatchRec) :=
  match get_main_weapon W m user with
  | none => none
  | some main =>
    match run_kills W e m user emap initO excl main initBuckets [] m.kills with
    | none => none
    | some (b, ks) =>
      match bucket_get b main with
      | none => some (0, { m with kills := ks })
      | some acc =>
        match initO with
        | none => none
        | some ie =>
          some (elo_elo (ie : Rat) acc.exp acc.act 1 - (ie : Rat),
                { m with kills := ks })

/-- The qualifying-player list comprehension of `_calibration_score`:
players whose declared tier equals the target, whose main weapon equals the
target weapon, and who are not excluded, in list order (the short-circuit
of `and` means the main weapon is only computed for tier hits). -/
def qualifying_players (W : List Weapon) (m : MatchRec) (tier : Int)
    (weapon : String) (excl : List String) : List Player → Option (List Player)
  | [] => some []
  | p :: rest =>
    if p.competitiveTier == some tier then
      match get_main_weapon W m p.subject with
      | none => none
      | some mw =>
        match qualifying_players W m tier weapon excl rest with
        | none => none
        | some l =>
          some (if mw == weapon && !(excl.contains p.subject) then p :: l else l)
    else qualifying_players W m tier weapon excl rest

/-- The inner accumulation of `_calibration_score`: sum of the rating gains
of the given players (each computed with the same initial rating; the
mutated match is discarded — the in-place `victim` rewrite is idempotent
and invisible to every later read). -/
def sum_gains (W : List Weapon) (e : Int → Int → Rat) (m : MatchRec)
    (emap : EloMap) (excl : List String) (initO : Option Int) :
    List Player → Rat → Option Rat
  | [], acc => some acc
  | p :: rest, acc =>
    match elo_gain_for_match_for_user W e m p.subject emap initO excl with
    | none => none
    | some (g, _) => sum_gains W e m emap excl initO rest (acc + g)

/-- The match loop of `_calibration_score`. -/
def calibration_score_go (W : List Weapon) (e : Int → Int → Rat)
    (emap : EloMap) (tier : Int) (weapon : String) (excl : List String) :
    List MatchRec → Rat → Option Rat
  | [], res => some res
  | m :: rest, res =>
    match qualifying_players W m tier weapon excl m.players with
    | none => none
    | some ps =>
      if ps.length < 2 then calibration_score_go W e emap tier weapon excl rest res
      else
        match sum_gains W e m emap excl (get_tier_elo tier emap) ps 0 with
        | none => none
        | some match_res =>
          calibration_score_go W e emap tier weapon excl rest
            (res + match_res / (ps.length : Rat))

/-- `_calibration_score` of valstats.py: over the given match list, skip those
with fewer than two qualifying players, and add the mean rating gain of the
qualifying players of each remaining match. -/
def _calibration_score (W : List Weapon) (e : Int → Int → Rat)
    (ms : List MatchRec) (emap : EloMap) (tier : Int) (weapon : String)
    (excl : List String) : Option Rat :=
  calibration_score_go W e emap tier weapon excl ms 0

/-- The per-tier dict of `_score_all_tiers`, in key order. -/
def tier_scores (W : List Weapon) (e : Int → Int → Rat)
    (ms : List MatchRec) (emap : EloMap) (excl : List String) :
    List Int → Option (List (Int × Rat))
  | [] => some []
  | t :: rest =>
    match _calibration_score W e ms emap t "Vandal" excl with
    | none => none
    | some s =>
      match tier_scores W e ms emap excl rest with
      | none => none
      | some l => some ((t, s) :: l)

/-- The result dict of `_score_all_tiers`. -/
structure ScoreTable where
  total : Rat
  tiers : List (Int × Rat)
deriving DecidableEq, Repr

/-- `_score_all_tiers` of valstats.py: per-tier calibration scores over the
table's key domain (weapon fixed to "Vandal"), and the sum of their
absolute values as the total. -/
def _score_all_tiers (W : List Weapon) (e : Int → Int → Rat)
    (ms : List MatchRec) (emap : EloMap) (excl : List String) :
    Option ScoreTable :=
  match tier_scores W e ms emap excl tierDomain with
  | none => none
  | some ts => some ⟨(ts.map (fun p => pyAbs p.2)).sum, ts⟩

/-- Pointwise update of a rating table (`new_elo_map[tier] = v`). -/
def eupdate (m : EloMap) (t : Int) (v : Int) : EloMap :=
  fun u => if u = t then v else m u

/-- `_adjust_elo` of valstats.py: nudge tier `t` by `amount`; when pushing up
would close the gap to the tier above to `min_diff` or less (measured on the
updated table), cascade a `+1` upward; when pushing down from a gap to the
tier below that was already at most `min_diff` (measured on the original
table), cascade a `-1` downward. -/
def _adjust_elo (t : Int) (amount : Int) (min_diff : Int) (m : EloMap) :
    EloMap :=
  let m1 := eupdate m t (m t + amount)
  let m2 := if h : 0 < amount ∧ t < MAX_TIER ∧ m1 (t + 1) ≤ m1 t + min_diff
            then _adjust_elo (t + 1) 1 min_diff m1 else m1
  if h2 : amount < 0 ∧ MIN_TIER < t ∧ m t - min_diff ≤ m (t - 1)
  then _adjust_elo (t - 1) (-1) min_diff m2 else m2
termination_by (if 0 < amount then (MAX_TIER - t).toNat else (t - MIN_TIER).toNat)
decreasing_by
  · simp only [if_pos h.1, if_pos (by norm_num : (0:Int) < 1)]
    have := h.2.1
    omega
  · have hnot : ¬ (0 < amount) := by omega
    simp only [if_neg hnot, if_neg (by norm_num : ¬ (0:Int) < -1)]
    have := h2.2.1
    unfold MIN_TIER at this ⊢
    omega

/-- Lookup in the per-tier score dict (`scores['tiers'][tier]`; the key is
always present for tiers of the domain). -/
def scoreLookup (ts : List (Int × Rat)) (t : Int) : Rat :=
  ((ts.find? (fun p => p.1 == t)).map (fun p => p.2)).getD 0

/-- The candidate-building loop of one `calibrate_elo` iteration: for every
tier of the (initial) domain whose per-tier score — computed once, before
the loop, and never refreshed — is nonzero, nudge by
`int(NUDGE_DISTANCE * score/abs(score))` with `MIN_TIER_DIFF = 5` and record
the candidate's total bias. -/
def build_candidates (W : List Weapon) (e : Int → Int → Rat)
    (ms : List MatchRec) (excl : List String)
    (scores0 : List (Int × Rat)) (bm : EloMap) :
    List Int → Option (List (Int × Rat × Int))
  | [] => some []
  | t :: rest =>
    let sc := scoreLookup scores0 t
    if sc = 0 then build_candidates W e ms excl scores0 bm rest
    else
      let amount : Int := if 0 < sc then 1 else -1
      match _score_all_tiers W e ms (_adjust_elo t amount 5 bm) excl with
      | none => none
      | some st =>
        match build_candidates W e ms excl scores0 bm rest with
        | none => none
        | some l => some ((t, st.total, amount) :: l)

/-- `sorted(test_scores, key=lambda y: abs(test_scores[y][0]))[0]`: the first
candidate, in insertion order, of minimal absolute total; `none` models the
`IndexError` on an empty dict. -/
def pyMinAbsKey : List (Int × Rat × Int) → Option (Int × Rat × Int)
  | [] => none
  | x :: rest =>
    some (rest.foldl (fun best y => if pyAbs y.2.1 < pyAbs best.2.1 then y else best) x)

/-- The mutable state of the calibration search. -/
structure CalState where
  best_map : EloMap
  best_score : Rat

/-- One iteration of the `while True` loop of `calibrate_elo`:
`none` models a raised exception; `Sum.inr` is the `break` (convergence,
state unchanged); `Sum.inl` adopts the best candidate. -/
def calib_step (W : List Weapon) (e : Int → Int → Rat)
    (ms : List MatchRec) (excl : List String)
    (scores0 : List (Int × Rat)) (s : CalState) : Option (CalState ⊕ CalState) :=
  match build_candidates W e ms excl scores0 s.best_map tierDomain with
  | none => none
  | some tests =>
    match pyMinAbsKey tests with
    | none => none
    | some (t, tot, amt) =>
      if s.best_score ≤ tot then some (Sum.inr s)
      else some (Sum.inl ⟨_adjust_elo t amt 5 s.best_map, tot⟩)

/-- Outcome of running the calibration search with bounded fuel:
`crash` is a raised exception, `fuelOut` means the loop was still running
after the given number of iterations, `finished` is the `break` with the
final state and the Python return value of `calibrate_elo` (the function
body has no `return` statement, so the returned value is `None`,
modelled as `none`). -/
inductive CalOutcome where
  | crash : CalOutcome
  | fuelOut : CalState → CalOutcome
  | finished : CalState → Option EloMap → CalOutcome

/-- `true` on every outcome except running out of fuel. -/
def CalOutcome.isSettled : CalOutcome → Bool
  | .fuelOut _ => false
  | _ => true

/-- The Python return value of a finished run (`none` elsewhere). -/
def CalOutcome.retVal : CalOutcome → Option (Option EloMap)
  | .finished _ r => some r
  | _ => none

/-- `true` exactly on `finished`. -/
def CalOutcome.isFinished : CalOutcome → Bool
  | .finished _ _ => true
  | _ => false

/-- The `while True` loop of `calibrate_elo`, fuelled. -/
def calib_loop (W : List Weapon) (e : Int → Int → Rat)
    (ms : List MatchRec) (excl : List String)
    (scores0 : List (Int × Rat)) : Nat → CalState → CalOutcome
  | 0, s => .fuelOut s
  | Nat.succ n, s =>
    match calib_step W e ms excl scores0 s with
    | none => .crash
    | some (Sum.inr s2) => .finished s2 none
    | some (Sum.inl s2) => calib_loop W e ms excl scores0 n s2

/-- The corpus filter at the top of `calibrate_elo`: deathmatch-type games
started after the last rank change. -/
def dm_filter (ms : List MatchRec) : List MatchRec :=
  ms.filter (fun m =>
    (m.queueID == "deathmatch" || m.queueID == "team deathmatch") &&
      LAST_RANK_CHANGE < m.gameStartMillis)

/-- `calibrate_elo` of valstats.py (fuelled): filter the corpus, score the
initial table (these per-tier scores are the ones the loop keeps reading),
and run the search loop from the initial table. -/
def calibrate_elo (W : List Weapon) (e : Int → Int → Rat)
    (ms : List MatchRec) (init_map : EloMap) (excl : List String)
    (fuel : Nat) : CalOutcome :=
  let ms := dm_filter ms
  match _score_all_tiers W e ms init_map excl with
  | none => .crash
  | some sc0 => calib_loop W e ms excl sc0.tiers fuel ⟨init_map, sc0.total⟩

/-- A one-weapon reference table used by the concrete corpora below. -/
def W5 : List Weapon := [⟨"w-van", "Vandal"⟩]

/-- A two-weapon reference table used by concrete witnesses. -/
def W0 : List Weapon := [⟨"w-van", "Vandal"⟩, ⟨"w-cls", "Classic"⟩]

/-- A constant expected-score function (an admissible instance of the
external `elo.expected`): every duel has expected score 1/3. -/
def expC : Int → Int → Rat := fun _ _ => 1/3

/-- A logistic-like expected-score function (an admissible instance of the
external `elo.expected`): 1/2 on equal ratings, strictly decreasing in the
rating gap, always in (0, 1), with `expFn5 a b + expFn5 b a = 1`. -/
def expFn5 (a b : Int) : Rat :=
  if a = b then 1/2
  else if a < b then 1/(2 * ((b - a : Int) + 1))
  else 1 - 1/(2 * ((a - b : Int) + 1))

/-- A deathmatch with two tier-12 players (A, B) and one tier-13 player (C),
all with main weapon Vandal: A and B trade one kill, C kills B once. -/
def M5 : MatchRec :=
  { queueID := "deathmatch"
    gameStartMillis := 1655942400001
    players := [⟨"A", some 12⟩, ⟨"B", some 12⟩, ⟨"C", some 13⟩]
    kills := [⟨"A", some "B", "B", "w-van"⟩,
              ⟨"B", some "A", "A", "w-van"⟩,
              ⟨"C", some "B", "B", "w-van"⟩] }

/-- A deathmatch whose only kill record lacks the `victim` key. -/
def Mv : MatchRec :=
  { queueID := "deathmatch"
    gameStartMillis := 1655942400001
    players := [⟨"A", some 12⟩, ⟨"B", some 12⟩]
    kills := [⟨"A", none, "B", "w-van"⟩] }

/-- A deathmatch in which U's only opponent V is unranked (tier 0), with
both players' main weapon Vandal. -/
def Mu : MatchRec :=
  { queueID := "deathmatch"
    gameStartMillis := 1655942400001
    players := [⟨"U", some 12⟩, ⟨"V", some 0⟩]
    kills := [⟨"U", some "V", "V", "w-van"⟩, ⟨"V", some "U", "U", "w-van"⟩] }

/-- Expected-score accumulator of a bucket (0 when the bucket is absent). -/
def accExp (b : Buckets) (w : String) : Rat :=
  ((bucket_get b w).map (fun a => a.exp)).getD 0

/-- Actual-score accumulator of a bucket (0 when the bucket is absent). -/
def accAct (b : Buckets) (w : String) : Rat :=
  ((bucket_get b w).map (fun a => a.act)).getD 0

/-- First-occurrence association list of a list of ids with their total
counts: the normal form of the Python weapon-count dict. -/
def occList : List String → List (String × Nat)
  | [] => []
  | w :: rest =>
    (w, rest.count w + 1) :: occList (rest.filter (fun x => x != w))
termination_by l => l.length
decreasing_by
  simp only [List.length_cons]
  exact Nat.lt_succ_of_le (List.length_filter_le _ _)

/-- Maximal kill count over a list of weapon ids. -/
def maxCount (ids : List String) : Nat :=
  (ids.map (fun w => ids.count w)).foldl max 0

/-- The specification of the Main-Weapon Classifier, written from the claim:
"Unknown" on zero kills, otherwise the display name of the first weapon id,
in kill order, whose kill count attains the maximum (the plurality weapon,
ties broken by the first weapon reaching the maximum count in iteration
order). -/
def spec_main_weapon (W : List Weapon) (m : MatchRec) (user : String) :
    Option String :=
  let ids := (m.kills.filter (fun k => k.killer == user)).map
    (fun k => k.damageItem)
  match ids with
  | [] => some "Unknown"
  | _ =>
    match ids.find? (fun w => ids.count w == maxCount ids) with
    | none => none
    | some chosen =>
      (get_weapon W none (some chosen)).map (fun w => w.displayName)

/-- The Rating Table invariant: every adjacent pair of tiers in the domain
is separated by at least the minimum gap. -/
def validMap (d : Int) (m : EloMap) : Prop :=
  ∀ u : Int, MIN_TIER ≤ u → u < MAX_TIER → d ≤ m (u + 1) - m u

/-- The qualifying (match, player) pairs of a sub-corpus, skipping matches
with fewer than two qualifying players — written from the claim. -/
def spec_qualifying_pairs (W : List Weapon) (tier : Int) (weapon : String)
    (excl : List String) : List MatchRec → Option (List (MatchRec × Player))
  | [] => some []
  | m :: rest =>
    match qualifying_players W m tier weapon excl m.players with
    | none => none
    | some ps =>
      match spec_qualifying_pairs W tier weapon excl rest with
      | none => none
      | some l =>
        some ((if ps.length < 2 then [] else ps.map (fun p => (m, p))) ++ l)

/-- Sum of rating gains over qualifying (match, player) pairs. -/
def spec_sum_pair_gains (W : List Weapon) (e : Int → Int → Rat)
    (emap : EloMap) (tier : Int) (excl : List String) :
    List (MatchRec × Player) → Option Rat
  | [] => some 0
  | (m, p) :: rest =>
    match elo_gain_for_match_for_user W e m p.subject emap
        (get_tier_elo tier emap) excl with
    | none => none
    | some (g, _) =>
      match spec_sum_pair_gains W e emap tier excl rest with
      | none => none
      | some s => some (g + s)

/-- The claim's reading of the Per-Tier Bias Aggregator: the mean rating gain
across all qualifying players of the whole sub-corpus (0 when none). -/
def spec_global_mean (W : List Weapon) (e : Int → Int → Rat)
    (ms : List MatchRec) (emap : EloMap) (tier : Int) (weapon : String)
    (excl : List String) : Option Rat :=
  match spec_qualifying_pairs W tier weapon excl ms with
  | none => none
  | some [] => some 0
  | some pairs =>
    match spec_sum_pair_gains W e emap tier excl pairs with
    | none => none
    | some s => some (s / (pairs.length : Rat))

/-- One match's contribution to the aggregator: 0 for a skipped match,
otherwise the mean rating gain of its qualifying players. -/
def match_contrib (W : List Weapon) (e : Int → Int → Rat) (m : MatchRec)
    (emap : EloMap) (tier : Int) (weapon : String) (excl : List String) :
    Option Rat :=
  match qualifying_players W m tier weapon excl m.players with
  | none => none
  | some ps =>
    if ps.length < 2 then some 0
    else
      match sum_gains W e m emap excl (get_tier_elo tier emap) ps 0 with
      | none => none
      | some s => some (s / (ps.length : Rat))

/-- The amended reading: the sum over the sub-corpus of per-match mean
rating gains. -/
def spec_sum_of_means (W : List Weapon) (e : Int → Int → Rat)
    (emap : EloMap) (tier : Int) (weapon : String) (excl : List String) :
    List MatchRec → Option Rat
  | [] => some 0
  | m :: rest =>
    match match_contrib W e m emap tier weapon excl with
    | none => none
    | some c =>
      match spec_sum_of_means W e emap tier weapon excl rest with
      | none => none
      | some s => some (c + s)

/-- The total bias of the C5 corpus as a function of the gap between the
tier-13 and tier-12 ratings. -/
def c5f (d : Int) : Rat := 1 / (4 * ((d : Rat) + 1))

/-- The nonzero initial tier-12 score of the C5 run, as a kernel-reducible
rational literal (its value is minus one twenty-fourth). -/
def c5neg : Rat := ⟨-1, 24, by norm_num, by norm_num⟩

/-- The frozen per-tier score dict of the C5 run. -/
def c5scores0 : List (Int × Rat) :=
  [(3, 0), (4, 0), (5, 0), (6, 0), (7, 0), (8, 0), (9, 0), (10, 0),
   (11, 0), (12, c5neg), (13, 0), (14, 0), (15, 0), (16, 0), (17, 0),
   (18, 0), (19, 0), (20, 0), (21, 0), (22, 0), (23, 0), (24, 0), (25, 0),
   (26, 0), (27, 0)]

/-! ## Weapon lookup (C10) -/

/-- Membership form of a successful "Vandal" lookup. -/
lemma find_vandal_isSome {W : List Weapon} (v : Weapon) (hv : v ∈ W)
    (hname : v.displayName = "Vandal") :
    (W.find? (fun w => w.displayName == "Vandal")).isSome = true := by
  rw [List.find?_isSome]
  exact ⟨v, hv, by simp [hname]⟩

/-- With a Vandal entry present, uuid lookups always succeed. -/
lemma get_weapon_uuid_isSome (W : List Weapon) (v : Weapon) (hv : v ∈ W)
    (hvn : v.displayName = "Vandal") (u : String) :
    (get_weapon W none (some u)).isSome = true := by
  have hvandal := find_vandal_isSome v hv hvn
  simp only [get_weapon]
  rcases hfind : W.find? (fun w => w.uuid == pyLower u) with _ | w <;>
    simp only [hfind]
  · exact hvandal
  · rfl

/-- With a Vandal entry present, name lookups always succeed. -/
lemma get_weapon_name_isSome (W : List Weapon) (v : Weapon) (hv : v ∈ W)
    (hvn : v.displayName = "Vandal") (n : String) :
    (get_weapon W (some n) none).isSome = true := by
  have hvandal := find_vandal_isSome v hv hvn
  simp only [get_weapon]
  rcases hfind : W.find? (fun w => w.displayName == pyTitle n) with _ | w <;>
    simp only [hfind]
  · exact hvandal
  · rfl

/-- With a Vandal entry present, the Main-Weapon Classifier always succeeds. -/
lemma get_main_weapon_isSome (W : List Weapon) (v : Weapon) (hv : v ∈ W)
    (hvn : v.displayName = "Vandal") (m : MatchRec) (user : String) :
    (get_main_weapon W m user).isSome = true := by
  simp only [get_main_weapon]
  rcases hw : (m.kills.filter (fun k => k.killer == user)).foldl
      (fun acc k => bump acc k.damageItem) [] with _ | ⟨x, rest⟩ <;>
    simp only [hw]
  · rfl
  · simp only [pyMaxCountKey]
    rcases hg : get_weapon W none (some ((rest.foldl pick x).1)) with _ | w
    · have h2 := get_weapon_uuid_isSome W v hv hvn ((rest.foldl pick x).1)
      rw [hg] at h2
      exact absurd h2 (by simp)
    · simp [hg]

/-- C10. An identifier (uuid or display name) matching no entry of the weapon
reference data makes `get_weapon` fall back to the "Vandal" record; given
that the reference data holds a Vandal entry, `get_weapon` therefore always
succeeds, and so does `get_main_weapon`: unknown weapon identifiers are
silently classified rather than raising. -/
theorem get_weapon_unmatched_falls_back_to_vandal :
    (∀ (W : List Weapon) (u : String),
        W.find? (fun w => w.uuid == pyLower u) = none →
        get_weapon W none (some u) = W.find? (fun w => w.displayName == "Vandal"))
    ∧ (∀ (W : List Weapon) (n : String),
        W.find? (fun w => w.displayName == pyTitle n) = none →
        get_weapon W (some n) none = W.find? (fun w => w.displayName == "Vandal"))
    ∧ (∀ (W : List Weapon) (v : Weapon), v ∈ W → v.displayName = "Vandal" →
        (∀ u : String, (get_weapon W none (some u)).isSome = true)
        ∧ (∀ n : String, (get_weapon W (some n) none).isSome = true)
        ∧ (∀ (m : MatchRec) (user : String),
            (get_main_weapon W m user).isSome = true)) := by
  refine ⟨?_, ?_, ?_⟩
  · intro W u h
    simp [get_weapon, h]
  · intro W n h
    simp [get_weapon, h]
  · intro W v hv hname
    exact ⟨get_weapon_uuid_isSome W v hv hname,
           get_weapon_name_isSome W v hv hname,
           get_main_weapon_isSome W v hv hname⟩

/-- Witness for C10: the unknown uuid "zzz" resolves to the Vandal record of
the table `W0`, and `get_main_weapon` succeeds on the concrete match `M5`. -/
theorem get_weapon_unmatched_falls_back_to_vandal_witness :
    get_weapon W0 none (some "zzz") =
      W0.find? (fun w => w.displayName == "Vandal")
    ∧ (get_main_weapon W0 M5 "A").isSome = true :=
  ⟨get_weapon_unmatched_falls_back_to_vandal.1 W0 "zzz" (by decide),
   (get_weapon_unmatched_falls_back_to_vandal.2.2 W0 ⟨"w-van", "Vandal"⟩
      (by simp [W0]) rfl).2.2 M5 "A"⟩

/-! ## Calibration crash on an already-converged table (C1) -/

/-- When every per-tier score of the frozen score dict is zero, the
candidate-building loop produces the empty dict. -/
lemma build_candidates_all_zero (W : List Weapon) (e : Int → Int → Rat)
    (ms : List MatchRec) (excl : List String) (scores0 : List (Int × Rat))
    (bm : EloMap) (l : List Int) (h : ∀ t ∈ l, scoreLookup scores0 t = 0) :
    build_candidates W e ms excl scores0 bm l = some [] := by
  induction l with
  | nil => rfl
  | cons t rest ih =>
    have ht : scoreLookup scores0 t = 0 := h t (by simp)
    simp only [build_candidates, ht, if_pos]
    exact ih (fun u hu => h u (by simp [hu]))

/-- C1. On a corpus whose per-tier biases are all zero under the initial
table, `calibrate_elo` does not converge cleanly: the candidate dict of the
first iteration stays empty and `sorted(test_scores, ...)[0]` raises
`IndexError` (the spec instead promises a direct transition to `CONVERGED`
returning the initial table). -/
theorem calibrate_elo_all_zero_bias_crashes (W : List Weapon)
    (e : Int → Int → Rat) (ms : List MatchRec) (init_map : EloMap)
    (excl : List String) (fuel : Nat) (sc0 : ScoreTable)
    (hsc : _score_all_tiers W e (dm_filter ms) init_map excl = some sc0)
    (hzero : ∀ t ∈ tierDomain, scoreLookup sc0.tiers t = 0)
    (hfuel : 1 ≤ fuel) :
    calibrate_elo W e ms init_map excl fuel = CalOutcome.crash := by
  obtain ⟨n, rfl⟩ : ∃ n, fuel = n + 1 := ⟨fuel - 1, by omega⟩
  simp only [calibrate_elo, hsc]
  simp only [calib_loop, calib_step,
    build_candidates_all_zero W e (dm_filter ms) excl sc0.tiers init_map
      tierDomain hzero]
  rfl

/-- Witness for C1: the empty corpus gives every tier a zero bias, and the
run crashes at the first iteration. -/
theorem calibrate_elo_all_zero_bias_crashes_witness :
    calibrate_elo W0 expC [] global_elo_map [] 1 = CalOutcome.crash :=
  calibrate_elo_all_zero_bias_crashes W0 expC [] global_elo_map [] 1
    ⟨0, [(3, 0), (4, 0), (5, 0), (6, 0), (7, 0), (8, 0), (9, 0), (10, 0),
         (11, 0), (12, 0), (13, 0), (14, 0), (15, 0), (16, 0), (17, 0),
         (18, 0), (19, 0), (20, 0), (21, 0), (22, 0), (23, 0), (24, 0),
         (25, 0), (26, 0), (27, 0)]⟩
    (by with_unfolding_all rfl) (by with_unfolding_all decide) (by omega)

/-! ## The search yields None, not the best table (C2) -/

/-- A finished run of the search loop always carries the Python return value
`None`: the body of `calibrate_elo` has no `return` statement. -/
lemma calib_loop_finished_ret_none (W : List Weapon) (e : Int → Int → Rat)
    (ms : List MatchRec) (excl : List String) (scores0 : List (Int × Rat)) :
    ∀ (n : Nat) (s s2 : CalState) (r : Option EloMap),
      calib_loop W e ms excl scores0 n s = CalOutcome.finished s2 r →
      r = none := by
  intro n
  induction n with
  | zero => intro s s2 r h; simp [calib_loop] at h
  | succ k ih =>
    intro s s2 r h
    simp only [calib_loop] at h
    rcases hstep : calib_step W e ms excl scores0 s with _ | ⟨s3⟩ | ⟨s3⟩ <;>
      rw [hstep] at h
    · simp at h
    · exact ih s3 s2 r h
    · simp only [CalOutcome.finished.injEq] at h
      exact h.2.symm

/-- C2 (amended). When the calibration search reaches `CONVERGED`, the value
it yields to its caller is `None` — not the final best table, which is only
written to the console. -/
theorem calibrate_elo_finished_returns_none (W : List Weapon)
    (e : Int → Int → Rat) (ms : List MatchRec) (init_map : EloMap)
    (excl : List String) (fuel : Nat) (s : CalState) (r : Option EloMap)
    (h : calibrate_elo W e ms init_map excl fuel = CalOutcome.finished s r) :
    r = none := by
  simp only [calibrate_elo] at h
  rcases hsc : _score_all_tiers W e (dm_filter ms) init_map excl with _ | sc0 <;>
    rw [hsc] at h
  · simp at h
  · exact calib_loop_finished_ret_none W e (dm_filter ms) excl sc0.tiers fuel
      ⟨init_map, sc0.total⟩ s r h

/-- Counterexample for C2 as stated: on the concrete corpus `[M5]` the search
converges in its first iteration, and the value returned to the caller is
`None` — no rating table is yielded. -/
theorem calibrate_elo_returns_no_table_counterexample :
    (calibrate_elo W5 expC [M5] global_elo_map [] 1).isFinished = true
    ∧ (calibrate_elo W5 expC [M5] global_elo_map [] 1).retVal = some none :=
  ⟨by with_unfolding_all rfl, by with_unfolding_all rfl⟩

/-- Witness for the amended C2, applying it to the concrete converged run. -/
theorem calibrate_elo_finished_returns_none_witness :
    (none : Option EloMap) = none :=
  calibrate_elo_finished_returns_none W5 expC [M5] global_elo_map [] 1
    ⟨global_elo_map, 1/6⟩ none (by with_unfolding_all rfl)

/-! ## Kill-loop helper lemmas -/

/-- Normalization never touches the killer field. -/
lemma normalize_kill_killer (k : Kill) : (normalize_kill k).killer = k.killer := by
  unfold normalize_kill
  split <;> rfl

/-- Normalization leaves a kill with a present victim unchanged. -/
lemma normalize_kill_of_isSome {k : Kill} (h : k.victim.isSome = true) :
    normalize_kill k = k := by
  unfold normalize_kill
  cases hv : k.victim with
  | none => rw [hv] at h; simp at h
  | some v => simp [hv]

/-- After normalization the victim field is always present. -/
lemma normalize_kill_victim_isSome (k : Kill) :
    ((normalize_kill k).victim).isSome = true := by
  unfold normalize_kill
  cases hv : k.victim with
  | none => simp [hv]
  | some v => simp [hv]

/-- Every successful step of the kill loop returns the normalized kill. -/
lemma process_kill_snd (W : List Weapon) (e : Int → Int → Rat) (m : MatchRec)
    (user : String) (emap : EloMap) (initO : Option Int) (excl : List String)
    (mw : String) (b : Buckets) (k0 : Kill) (r : Buckets × Kill)
    (h : process_kill W e m user emap initO excl mw b k0 = some r) :
    r.2 = normalize_kill k0 := by
  simp only [process_kill] at h
  repeat' split at h
  all_goals first
    | exact Option.noConfusion h
    | (injection h with h2; rw [← h2])

/-- A kill not involving the subject is skipped with the buckets unchanged. -/
lemma process_kill_not_involved (W : List Weapon) (e : Int → Int → Rat)
    (m : MatchRec) (user : String) (emap : EloMap) (initO : Option Int)
    (excl : List String) (mw : String) (b : Buckets) (k0 : Kill)
    (h1 : (normalize_kill k0).killer ≠ user)
    (h2 : (normalize_kill k0).victim.getD "" ≠ user) :
    process_kill W e m user emap initO excl mw b k0 =
      some (b, normalize_kill k0) := by
  simp only [process_kill]
  rw [if_pos ⟨h1, h2⟩]

/-- The kill loop over kills never involving the subject returns the initial
buckets and the normalized kill list. -/
lemma run_kills_all_skipped (W : List Weapon) (e : Int → Int → Rat)
    (m : MatchRec) (user : String) (emap : EloMap) (initO : Option Int)
    (excl : List String) (mw : String) (l : List Kill)
    (h : ∀ k ∈ l, (normalize_kill k).killer ≠ user ∧
          (normalize_kill k).victim.getD "" ≠ user) :
    ∀ (b : Buckets) (done : List Kill),
      run_kills W e m user emap initO excl mw b done l =
        some (b, done ++ l.map normalize_kill) := by
  induction l with
  | nil => intro b done; simp [run_kills]
  | cons k rest ih =>
    intro b done
    have hk := h k (by simp)
    simp only [run_kills,
      process_kill_not_involved W e m user emap initO excl mw b k hk.1 hk.2]
    rw [ih (fun u hu => h u (by simp [hu]))]
    simp

/-- A player with no kills as killer has main weapon "Unknown". -/
lemma get_main_weapon_no_kills (W : List Weapon) (m : MatchRec) (user : String)
    (h : ∀ k ∈ m.kills, k.killer ≠ user) :
    get_main_weapon W m user = some "Unknown" := by
  have hf : m.kills.filter (fun k => k.killer == user) = [] :=
    List.filter_eq_nil_iff.mpr (fun k hk => by simp [h k hk])
  simp [get_main_weapon, hf]

/-! ## Frame property of the calculator (C6) -/

/-- The kill loop returns the kill list it was given when every victim field
is already present. -/
lemma run_kills_preserves (W : List Weapon) (e : Int → Int → Rat)
    (m : MatchRec) (user : String) (emap : EloMap) (initO : Option Int)
    (excl : List String) (mw : String) (l : List Kill)
    (hvic : ∀ k ∈ l, (k.victim).isSome = true) :
    ∀ (b : Buckets) (done : List Kill) (res : Buckets × List Kill),
      run_kills W e m user emap initO excl mw b done l = some res →
      res.2 = done ++ l := by
  induction l with
  | nil =>
    intro b done res h
    simp only [run_kills] at h
    injection h with h2
    rw [← h2]
    simp
  | cons k rest ih =>
    intro b done res h
    simp only [run_kills] at h
    rcases hp : process_kill W e m user emap initO excl mw b k with _ | ⟨b2, k2⟩ <;>
      rw [hp] at h
    · exact Option.noConfusion h
    · have hk2 : k2 = k := by
        have := process_kill_snd W e m user emap initO excl mw b k (b2, k2) hp
        rw [normalize_kill_of_isSome (hvic k (by simp))] at this
        exact this
      have := ih (fun u hu => hvic u (by simp [hu])) b2 (done ++ [k2]) res h
      rw [this, hk2]
      simp

/-- C6 (amended). On a match whose kill records all carry the `victim` field —
as every record produced by the Match Corpus Reader does — the Duel
Rating-Gain Calculator returns the match record exactly as it found it;
a kill record missing `victim` is however repaired in place (see the
counterexample). -/
theorem elo_gain_preserves_normalized_match (W : List Weapon)
    (e : Int → Int → Rat) (m : MatchRec) (user : String) (emap : EloMap)
    (initO : Option Int) (excl : List String) (g : Rat) (m2 : MatchRec)
    (hvic : ∀ k ∈ m.kills, (k.victim).isSome = true)
    (hrun : elo_gain_for_match_for_user W e m user emap initO excl =
      some (g, m2)) :
    m2 = m := by
  simp only [elo_gain_for_match_for_user] at hrun
  rcases hmw : get_main_weapon W m user with _ | main
  · simp only [hmw] at hrun
    exact Option.noConfusion hrun
  simp only [hmw] at hrun
  rcases hr : run_kills W e m user emap initO excl main initBuckets [] m.kills
      with _ | ⟨b, ks⟩
  · simp only [hr] at hrun
    exact Option.noConfusion hrun
  simp only [hr] at hrun
  have hks : ks = m.kills := by
    have := run_kills_preserves W e m user emap initO excl main m.kills hvic
      initBuckets [] (b, ks) hr
    simpa using this
  subst hks
  rcases hbg : bucket_get b main with _ | acc
  · simp only [hbg] at hrun
    injection hrun with h2
    injection h2 with h3 h4
    rw [← h4]
  · simp only [hbg] at hrun
    rcases initO with _ | ie
    · simp only [] at hrun
      exact Option.noConfusion hrun
    · simp only [] at hrun
      injection hrun with h2
      injection h2 with h3 h4
      rw [← h4]

/-- Counterexample for C6 as stated: on a kill record lacking the `victim`
key the calculator writes `victim_puuid` into it, so the match record it
leaves behind differs from the one it was given. -/
theorem elo_gain_mutates_unnormalized_match_counterexample :
    elo_gain_for_match_for_user W5 expC Mv "A" global_elo_map (some 1174) [] =
      some (0, { Mv with kills := [⟨"A", some "B", "B", "w-van"⟩] })
    ∧ ({ Mv with kills := [⟨"A", some "B", "B", "w-van"⟩] } : MatchRec) ≠ Mv :=
  ⟨by with_unfolding_all rfl, by decide⟩

/-- Witness for the amended C6 at the concrete normalized match `M5`. -/
theorem elo_gain_preserves_normalized_match_witness : M5 = M5 :=
  elo_gain_preserves_normalized_match W5 expC M5 "A" global_elo_map
    (some 1174) [] (1/3) M5 (by decide) (by with_unfolding_all rfl)

/-! ## Zero-delta cases of the calculator (C8) -/

/-- C8. The Duel Rating-Gain Calculator yields a delta of exactly 0 (and does
not raise) for a match none of whose kill events involves the subject; and,
in general, whenever the subject's main-weapon bucket is absent after the
kill loop, the delta is 0. -/
theorem elo_gain_zero_for_no_involvement :
    (∀ (W : List Weapon) (e : Int → Int → Rat) (m : MatchRec) (user : String)
        (emap : EloMap) (i : Int) (excl : List String),
      (∀ k ∈ m.kills, (normalize_kill k).killer ≠ user ∧
          (normalize_kill k).victim.getD "" ≠ user) →
      ∃ m2, elo_gain_for_match_for_user W e m user emap (some i) excl =
        some (0, m2))
    ∧ (∀ (W : List Weapon) (e : Int → Int → Rat) (m : MatchRec) (user : String)
        (emap : EloMap) (initO : Option Int) (excl : List String)
        (main : String) (b : Buckets) (ks : List Kill),
      get_main_weapon W m user = some main →
      run_kills W e m user emap initO excl main initBuckets [] m.kills =
        some (b, ks) →
      bucket_get b main = none →
      elo_gain_for_match_for_user W e m user emap initO excl =
        some (0, { m with kills := ks })) := by
  constructor
  · intro W e m user emap i excl h
    have hkiller : ∀ k ∈ m.kills, k.killer ≠ user := by
      intro k hk
      have := (h k hk).1
      rwa [normalize_kill_killer] at this
    have hmain := get_main_weapon_no_kills W m user hkiller
    have hrun := run_kills_all_skipped W e m user emap (some i) excl "Unknown"
      m.kills h initBuckets []
    refine ⟨{ m with kills := m.kills.map normalize_kill }, ?_⟩
    simp only [elo_gain_for_match_for_user, hmain, hrun]
    have hbg : bucket_get initBuckets "Unknown" = some ⟨0, 0⟩ := rfl
    simp only [hbg]
    norm_num [elo_elo]
  · intro W e m user emap initO excl main b ks hmain hrun hbg
    simp only [elo_gain_for_match_for_user, hmain, hrun, hbg]

/-- Witness for C8: the player "X" appears in no kill event of `M5`, and the
calculator reports a zero delta for them. -/
theorem elo_gain_zero_for_no_involvement_witness :
    ∃ m2, elo_gain_for_match_for_user W5 expC M5 "X" global_elo_map
      (some 1174) [] = some (0, m2) :=
  elo_gain_zero_for_no_involvement.1 W5 expC M5 "X" global_elo_map 1174 []
    (by decide)

/-! ## Unranked opponents are skipped, never fatal (C7) -/

/-- Reading the opponent when the subject is the killer: the opponent is the
victim, and the victim is not the subject. -/
lemma opponentOf_eq_of_killer (k1 : Kill) (user o : String)
    (h : opponentOf k1 user = some o) (hk : k1.killer = user) :
    k1.victim.getD "" = o ∧ k1.victim.getD "" ≠ user := by
  unfold opponentOf at h
  have hkb : (k1.killer != user) = false := by simp [hk]
  by_cases hv : k1.victim.getD "" = user
  · have hvb : (k1.victim.getD "" != user) = false := by simp [hv]
    simp [List.filter, hvb, hkb] at h
  · have hvb : (k1.victim.getD "" != user) = true := by simp [hv]
    simp [List.filter, hvb, hkb] at h
    exact ⟨h, hv⟩

/-- Reading the opponent when the subject is the victim: the opponent is the
killer, and the killer is not the subject. -/
lemma opponentOf_eq_of_victim (k1 : Kill) (user o : String)
    (h : opponentOf k1 user = some o) (hv : k1.victim.getD "" = user) :
    k1.killer = o ∧ k1.killer ≠ user := by
  unfold opponentOf at h
  have hvb : (k1.victim.getD "" != user) = false := by simp [hv]
  by_cases hk : k1.killer = user
  · have hkb : (k1.killer != user) = false := by simp [hk]
    simp [List.filter, hvb, hkb] at h
  · have hkb : (k1.killer != user) = true := by simp [hk]
    simp [List.filter, hvb, hkb] at h
    exact ⟨h, hk⟩

/-- Initialising an absent bucket to zero changes no accumulator value. -/
lemma bucket_ensure_accs (b : Buckets) (w w2 : String) :
    accExp (bucket_ensure b w) w2 = accExp b w2 ∧
    accAct (bucket_ensure b w) w2 = accAct b w2 := by
  unfold bucket_ensure
  rcases hf : b.find? (fun p => p.1 == w) with _ | p
  swap
  · simp [hf]
  · simp only [hf]
    unfold accExp accAct bucket_get
    rw [List.find?_append]
    by_cases hww : w = w2
    · subst hww
      have hb1 : List.find? (fun p => p.1 == w)
          [(w, (⟨0, 0⟩ : DuelAcc))] = some (w, ⟨0, 0⟩) := by
        simp [List.find?]
      rw [hf, hb1]
      simp [Option.or]
    · have hb : (w == w2) = false := by simp [hww]
      have hb1 : List.find? (fun p => p.1 == w2)
          [(w, (⟨0, 0⟩ : DuelAcc))] = none := by
        simp [List.find?, hb]
      rw [hb1]
      rcases hb2 : b.find? (fun p => p.1 == w2) with _ | q <;>
        simp [hb2, Option.or]

/-- C7. A kill event whose opponent entry carries an unranked or missing
tier (0 or absent) is never fatal to the calculator and contributes to
neither the expected nor the actual accumulator of any bucket. -/
theorem process_kill_skips_unranked_opponent (W : List Weapon)
    (e : Int → Int → Rat) (m : MatchRec) (user : String) (emap : EloMap)
    (initO : Option Int) (excl : List String) (main_weapon : String)
    (b : Buckets) (k : Kill) (o : String) (p : Player) (v : Weapon)
    (hv : v ∈ W) (hvn : v.displayName = "Vandal")
    (hopp : opponentOf (normalize_kill k) user = some o)
    (hfind : m.players.find? (fun q => q.subject == o) = some p)
    (hunr : is_unranked p.competitiveTier = true) :
    ∃ b2, process_kill W e m user emap initO excl main_weapon b k =
        some (b2, normalize_kill k)
      ∧ ∀ w, accExp b2 w = accExp b w ∧ accAct b2 w = accAct b w := by
  simp only [process_kill]
  split
  · exact ⟨b, rfl, fun w => ⟨rfl, rfl⟩⟩
  split
  · exact ⟨b, rfl, fun w => ⟨rfl, rfl⟩⟩
  rename_i hinv hexcl
  obtain ⟨omw, homw⟩ := Option.isSome_iff_exists.mp
    (get_main_weapon_isSome W v hv hvn m o)
  obtain ⟨kwr, hkw⟩ := Option.isSome_iff_exists.mp
    (get_weapon_uuid_isSome W v hv hvn (normalize_kill k).damageItem)
  simp only [hopp, homw, hkw]
  split
  · exact ⟨b, rfl, fun w => ⟨rfl, rfl⟩⟩
  rename_i hduel
  by_cases hkil : ((normalize_kill k).killer == user) = true
  · obtain ⟨hvo, hvne⟩ := opponentOf_eq_of_killer (normalize_kill k) user o
      hopp (by simpa using hkil)
    have hob : (o == user) = false := by
      simp [← hvo, hvne]
    refine ⟨bucket_ensure b kwr.displayName, ?_,
      fun w => bucket_ensure_accs b kwr.displayName w⟩
    simp [hkil, hvo, hfind, hunr, hob]
  · by_cases hvic : ((normalize_kill k).victim.getD "" == user) = true
    · obtain ⟨hko, hkne⟩ := opponentOf_eq_of_victim (normalize_kill k) user o
        hopp (by simpa using hvic)
      have hob : (o == user) = false := by
        simp [← hko, hkne]
      refine ⟨bucket_ensure b kwr.displayName, ?_,
        fun w => bucket_ensure_accs b kwr.displayName w⟩
      simp [hko, hvic, hfind, hunr, hob]
    · exact absurd (And.intro (by simpa using hkil) (by simpa using hvic)) hinv

/-- Witness for C7: in the match `Mu` the opponent "V" of the kill by "U" is
unranked (tier 0); the event is skipped without touching the accumulators. -/
theorem process_kill_skips_unranked_opponent_witness :
    ∃ b2, process_kill W5 expC Mu "U" global_elo_map (some 1174) [] "Vandal"
        initBuckets ⟨"U", some "V", "V", "w-van"⟩ =
        some (b2, normalize_kill ⟨"U", some "V", "V", "w-van"⟩)
      ∧ ∀ w, accExp b2 w = accExp initBuckets w ∧
          accAct b2 w = accAct initBuckets w :=
  process_kill_skips_unranked_opponent W5 expC Mu "U" global_elo_map
    (some 1174) [] "Vandal" initBuckets ⟨"U", some "V", "V", "w-van"⟩ "V"
    ⟨"V", some 0⟩ ⟨"w-van", "Vandal"⟩ (by decide) rfl (by decide) (by decide)
    (by decide)


/-! ## Main-Weapon Classifier against its specification (C9) -/

/-- Incrementing a key absent from an association list is the identity on it. -/
lemma map_bump_id (acc : List (String × Nat)) (x : String)
    (hno : ∀ p ∈ acc, p.1 ≠ x) :
    acc.map (fun p => if p.1 == x then (p.1, p.2 + 1) else p) = acc := by
  induction acc with
  | nil => rfl
  | cons q rest ih =>
    have hq : (q.1 == x) = false := by
      simp only [beq_eq_false_iff_ne, ne_eq]
      exact hno q (by simp)
    rw [List.map_cons, ih (fun p hp => hno p (by simp [hp]))]
    simp [hq]

/-- Keys of a bumped association list come from the list or are the bumped key. -/
lemma bump_keys (acc : List (String × Nat)) (x : String) (p : String × Nat)
    (hp : p ∈ bump acc x) : p.1 = x ∨ ∃ q ∈ acc, p.1 = q.1 := by
  unfold bump at hp
  rcases hf : acc.find? (fun q => q.1 == x) with _ | q <;> rw [hf] at hp
  · rcases List.mem_append.mp hp with h | h
    · exact Or.inr ⟨p, h, rfl⟩
    · left
      simp only [List.mem_singleton] at h
      rw [h]
  · obtain ⟨q2, hq2, hq2e⟩ := List.mem_map.mp hp
    refine Or.inr ⟨q2, hq2, ?_⟩
    rw [← hq2e]
    by_cases hqx : (q2.1 == x) = true <;> simp [hqx]

/-- A bump of an association list headed by a fresh key splits off the head. -/
lemma bump_cons (w : String) (n : Nat) (acc : List (String × Nat)) (x : String)
    (hno : ∀ p ∈ acc, p.1 ≠ w) :
    bump ((w, n) :: acc) x =
      if x = w then (w, n + 1) :: acc else (w, n) :: bump acc x := by
  by_cases hxw : x = w
  · subst hxw
    have hf : List.find? (fun p => p.1 == x) ((x, n) :: acc) = some (x, n) := by
      simp [List.find?_cons]
    simp only [bump, hf, List.map_cons]
    rw [map_bump_id acc x (fun p hp => hno p hp)]
    simp
  · have hwx : ((w == x) : Bool) = false := by
      simp only [beq_eq_false_iff_ne, ne_eq]
      exact fun h => hxw h.symm
    have hf : List.find? (fun p => p.1 == x) ((w, n) :: acc) =
        List.find? (fun p => p.1 == x) acc := by
      simp [List.find?_cons, hwx]
    rw [if_neg hxw]
    rcases ha : List.find? (fun p => p.1 == x) acc with _ | q
    · simp only [bump, hf, ha]
      rfl
    · simp only [bump, hf, ha, List.map_cons, hwx]
      simp

/-- Folding bumps over ids with a fresh-keyed head accumulator counts the
head's occurrences and processes the remaining ids against the tail. -/
lemma foldl_bump_split (ids : List String) : ∀ (w : String) (n : Nat)
    (acc : List (String × Nat)), (∀ p ∈ acc, p.1 ≠ w) →
    ids.foldl bump ((w, n) :: acc) =
      (w, n + ids.count w) :: (ids.filter (fun x => x != w)).foldl bump acc := by
  induction ids with
  | nil => intro w n acc hno; simp
  | cons x rest ih =>
    intro w n acc hno
    simp only [List.foldl_cons]
    rw [bump_cons w n acc x hno]
    by_cases hxw : x = w
    · subst hxw
      rw [if_pos rfl, ih x (n + 1) acc hno]
      have h1 : (x :: rest).count x = rest.count x + 1 := by
        simp [List.count_cons]
      have h2 : (x :: rest).filter (fun y => y != x) =
          rest.filter (fun y => y != x) := by
        simp [List.filter_cons]
      rw [h1, h2, show n + 1 + rest.count x = n + (rest.count x + 1) from by omega]
    · rw [if_neg hxw]
      have hno2 : ∀ p ∈ bump acc x, p.1 ≠ w := by
        intro p hp
        rcases bump_keys acc x p hp with h | ⟨q, hq, hpq⟩
        · rw [h]; exact hxw
        · rw [hpq]; exact hno q hq
      rw [ih w n (bump acc x) hno2]
      have hxwb : ((x == w) : Bool) = false := by
        simp only [beq_eq_false_iff_ne, ne_eq]
        exact hxw
      have h1 : (x :: rest).count w = rest.count w := by
        simp [List.count_cons, hxwb]
      have h2 : (x :: rest).filter (fun y => y != w) =
          x :: rest.filter (fun y => y != w) := by
        simp [List.filter_cons, hxw]
      rw [h1, h2]
      simp [List.foldl_cons]

/-- The Python weapon-count dict is exactly the first-occurrence count list. -/
lemma foldl_bump_eq_occList : ∀ (n : Nat) (ids : List String),
    ids.length ≤ n → ids.foldl bump [] = occList ids := by
  intro n
  induction n with
  | zero =>
    intro ids h
    cases ids with
    | nil => simp [occList]
    | cons w rest => simp at h
  | succ k ih =>
    intro ids h
    cases ids with
    | nil => simp [occList]
    | cons w rest =>
      simp only [List.foldl_cons]
      rw [show bump [] w = [(w, 1)] from rfl]
      rw [foldl_bump_split rest w 1 [] (by simp)]
      rw [ih (rest.filter (fun x => x != w)) (by
        have := List.length_filter_le (fun x => x != w) rest
        simp only [List.length_cons] at h
        omega)]
      rw [show (1 : Nat) + rest.count w = rest.count w + 1 from by omega]
      rw [occList]

/-- A pick returns one of its two arguments. -/
lemma pick_cases (x y : String × Nat) : pick x y = x ∨ pick x y = y := by
  unfold pick
  split <;> simp

/-- Folding picks over entries no larger than the incumbent keeps it. -/
lemma foldl_pick_stay (l : List (String × Nat)) : ∀ (x : String × Nat),
    (∀ y ∈ l, y.2 ≤ x.2) → l.foldl pick x = x := by
  induction l with
  | nil => intro x _; rfl
  | cons u t ih =>
    intro x h
    simp only [List.foldl_cons]
    rw [show pick x u = x from if_neg (by
      have := h u (by simp)
      omega)]
    exact ih x (fun y hy => h y (by simp [hy]))

/-- When a strictly larger entry lies ahead, the starting incumbent is
irrelevant among incumbents it dominates. -/
lemma foldl_pick_absorb (l : List (String × Nat)) : ∀ (x h : String × Nat),
    h.2 ≤ x.2 → (∃ z ∈ l, x.2 < z.2) →
    l.foldl pick x = l.foldl pick h := by
  induction l with
  | nil =>
    intro x h _ hz
    obtain ⟨z, hz1, _⟩ := hz
    simp at hz1
  | cons u t ih =>
    intro x h hle hz
    obtain ⟨z, hz1, hz2⟩ := hz
    simp only [List.foldl_cons]
    by_cases hu : u.2 > x.2
    · rw [show pick x u = u from if_pos hu,
        show pick h u = u from if_pos (by omega)]
    · rw [show pick x u = x from if_neg hu]
      have hzt : z ∈ t := by
        rcases List.mem_cons.mp hz1 with h2 | h2
        · subst h2; omega
        · exact h2
      by_cases hu2 : u.2 > h.2
      · rw [show pick h u = u from if_pos hu2]
        exact ih x u (by omega) ⟨z, hzt, hz2⟩
      · rw [show pick h u = h from if_neg hu2]
        exact ih x h hle ⟨z, hzt, hz2⟩

/-- The initial value is a lower bound of a max fold. -/
lemma init_le_foldl_max (l : List Nat) : ∀ (init : Nat),
    init ≤ l.foldl max init := by
  induction l with
  | nil => intro init; exact Nat.le_refl init
  | cons b t ih =>
    intro init
    exact le_trans (Nat.le_max_left init b) (ih (max init b))

/-- Every member is a lower bound of a max fold. -/
lemma mem_le_foldl_max (l : List Nat) : ∀ (init : Nat), ∀ a ∈ l,
    a ≤ l.foldl max init := by
  induction l with
  | nil => intro init a ha; simp at ha
  | cons b t ih =>
    intro init a ha
    rcases List.mem_cons.mp ha with h | h
    · subst h
      exact le_trans (Nat.le_max_right init a) (init_le_foldl_max t _)
    · exact ih (max init b) a h

/-- A bound on the initial value and every member bounds a max fold. -/
lemma foldl_max_le (l : List Nat) : ∀ (init b : Nat), init ≤ b →
    (∀ a ∈ l, a ≤ b) → l.foldl max init ≤ b := by
  induction l with
  | nil => intro init b h _; exact h
  | cons u t ih =>
    intro init b h hall
    simp only [List.foldl_cons]
    exact ih (max init u) b (max_le h (hall u (by simp)))
      (fun a ha => hall a (by simp [ha]))

/-- Every member's count bounds from below the maximal count. -/
lemma count_le_maxCount (ids : List String) (w : String) (hw : w ∈ ids) :
    ids.count w ≤ maxCount ids :=
  mem_le_foldl_max _ 0 _ (List.mem_map.mpr ⟨w, hw, rfl⟩)

/-- A bound on all counts bounds the maximal count. -/
lemma maxCount_le (ids : List String) (b : Nat)
    (h : ∀ x ∈ ids, ids.count x ≤ b) : maxCount ids ≤ b := by
  refine foldl_max_le _ 0 b (Nat.zero_le b) ?_
  intro a ha
  obtain ⟨x, hx, hxa⟩ := List.mem_map.mp ha
  rw [← hxa]
  exact h x hx

/-- Entries of the occurrence list carry the total count of their key, which
occurs in the id list. -/
lemma occList_facts : ∀ (n : Nat) (ids : List String), ids.length ≤ n →
    ∀ p ∈ occList ids, p.2 = ids.count p.1 ∧ p.1 ∈ ids := by
  intro n
  induction n with
  | zero =>
    intro ids h p hp
    cases ids with
    | nil => simp [occList] at hp
    | cons w rest => simp at h
  | succ k ih =>
    intro ids h p hp
    cases ids with
    | nil => simp [occList] at hp
    | cons w rest =>
      rw [occList] at hp
      rcases List.mem_cons.mp hp with h2 | h2
      · subst h2
        constructor
        · simp [List.count_cons]
        · simp
      · have hlen : (rest.filter (fun x => x != w)).length ≤ k := by
          have := List.length_filter_le (fun x => x != w) rest
          simp only [List.length_cons] at h
          omega
        obtain ⟨hc, hm⟩ := ih (rest.filter (fun x => x != w)) hlen p h2
        have hpw : (p.1 != w) = true := (List.mem_filter.mp hm).2
        have hpw2 : p.1 ≠ w := by simpa using hpw
        have hrest : p.1 ∈ rest := (List.mem_filter.mp hm).1
        have hwp : ((w == p.1) : Bool) = false := by
          simp only [beq_eq_false_iff_ne, ne_eq]
          exact Ne.symm hpw2
        constructor
        · rw [hc, List.count_filter (by simpa using hpw2)]
          simp [List.count_cons, hwp]
        · simp [hrest]

/-- Every id occurs as a key of the occurrence list. -/
lemma occList_complete : ∀ (n : Nat) (ids : List String), ids.length ≤ n →
    ∀ w ∈ ids, ∃ c, (w, c) ∈ occList ids := by
  intro n
  induction n with
  | zero =>
    intro ids h w hw
    cases ids with
    | nil => simp at hw
    | cons u rest => simp at h
  | succ k ih =>
    intro ids h w hw
    cases ids with
    | nil => simp at hw
    | cons u rest =>
      by_cases hwu : w = u
      · subst hwu
        exact ⟨rest.count w + 1, by rw [occList]; simp⟩
      · have hwrest : w ∈ rest := by
          rcases List.mem_cons.mp hw with h2 | h2
          · exact absurd h2 hwu
          · exact h2
        have hwf : w ∈ rest.filter (fun x => x != u) :=
          List.mem_filter.mpr ⟨hwrest, by simpa using hwu⟩
        have hlen : (rest.filter (fun x => x != u)).length ≤ k := by
          have := List.length_filter_le (fun x => x != u) rest
          simp only [List.length_cons] at h
          omega
        obtain ⟨c, hc⟩ := ih (rest.filter (fun x => x != u)) hlen w hwf
        exact ⟨c, by rw [occList]; simp [hc]⟩

/-- Removing elements failing the predicate does not change a find. -/
lemma find?_filter_ne (l : List String) (w : String) (p : String → Bool)
    (hw : p w = false) :
    l.find? p = (l.filter (fun x => x != w)).find? p := by
  induction l with
  | nil => rfl
  | cons x t ih =>
    by_cases hxw : x = w
    · subst hxw
      rw [List.find?_cons]
      simp only [hw]
      rw [List.filter_cons]
      simp only [bne_self_eq_false]
      exact ih
    · rw [List.filter_cons]
      simp only [show ((x != w) : Bool) = true from by simpa using hxw,
        if_true]
      rw [List.find?_cons, List.find?_cons]
      rcases hx : p x with _ | _ <;> simp [ih]

/-- Finds with pointwise-equal predicates agree. -/
lemma find?_congr_pred (l : List String) (p q : String → Bool)
    (h : ∀ x ∈ l, p x = q x) : l.find? p = l.find? q := by
  induction l with
  | nil => rfl
  | cons x t ih =>
    rw [List.find?_cons, List.find?_cons, h x (by simp)]
    rcases hq : q x with _ | _ <;>
      simp [ih (fun y hy => h y (by simp [hy]))]

/-- Python's first-maximal-key choice over the weapon-count dict coincides
with the first id, in kill order, whose count attains the maximum. -/
lemma pyMax_eq_specFind : ∀ (n : Nat) (ids : List String), ids.length ≤ n →
    ids ≠ [] → ∃ r, pyMaxCountKey (occList ids) = some r
      ∧ ids.find? (fun w => ids.count w == maxCount ids) = some r
      ∧ r ∈ ids := by
  intro n
  induction n with
  | zero =>
    intro ids h hne
    cases ids with
    | nil => exact absurd rfl hne
    | cons w rest => simp at h
  | succ k ih =>
    intro ids h hne
    cases ids with
    | nil => exact absurd rfl hne
    | cons w rest =>
      have hocc : occList (w :: rest) =
          (w, rest.count w + 1) :: occList (rest.filter (fun x => x != w)) := by
        rw [occList]
      have hlen : (rest.filter (fun x => x != w)).length ≤ k := by
        have := List.length_filter_le (fun x => x != w) rest
        simp only [List.length_cons] at h
        omega
      have hcid : (w :: rest).count w = rest.count w + 1 := by
        simp [List.count_cons]
      have hcount_tail : ∀ x ∈ rest.filter (fun x => x != w),
          (rest.filter (fun x => x != w)).count x = (w :: rest).count x ∧
            x ≠ w := by
        intro x hx
        have hxw : x ≠ w := by simpa using (List.mem_filter.mp hx).2
        have hwx : ((w == x) : Bool) = false := by
          simp only [beq_eq_false_iff_ne, ne_eq]
          exact Ne.symm hxw
        refine ⟨?_, hxw⟩
        rw [List.count_filter (by simpa using hxw)]
        simp [List.count_cons, hwx]
      by_cases hA : ∀ p ∈ occList (rest.filter (fun x => x != w)),
          p.2 ≤ rest.count w + 1
      · refine ⟨w, ?_, ?_, by simp⟩
        · rw [hocc]
          simp only [pyMaxCountKey]
          rw [foldl_pick_stay _ _ hA]
        · have hmax : maxCount (w :: rest) = rest.count w + 1 := by
            apply le_antisymm
            · apply maxCount_le
              intro x hx
              by_cases hxw : x = w
              · subst hxw
                rw [hcid]
              · have hxrest : x ∈ rest := (List.mem_cons.mp hx).resolve_left hxw
                have hxtail : x ∈ rest.filter (fun x => x != w) :=
                  List.mem_filter.mpr ⟨hxrest, by simpa using hxw⟩
                obtain ⟨cx, hcx⟩ := occList_complete k
                  (rest.filter (fun x => x != w)) hlen x hxtail
                have hle := hA (x, cx) hcx
                have hfacts := occList_facts k
                  (rest.filter (fun x => x != w)) hlen (x, cx) hcx
                rw [← (hcount_tail x hxtail).1, ← hfacts.1]
                exact hle
            · rw [← hcid]
              exact count_le_maxCount _ w (by simp)
          rw [List.find?_cons]
          have hb : ((rest.count w + 1 : Nat) == maxCount (w :: rest)) = true := by
            rw [hmax]
            simp
          simp [hb]
      · push_neg at hA
        obtain ⟨p, hp, hpc⟩ := hA
        have htail_ne : rest.filter (fun x => x != w) ≠ [] := by
          intro h0
          rw [h0] at hp
          simp [occList] at hp
        obtain ⟨r, hr1, hr2, hr3⟩ := ih (rest.filter (fun x => x != w))
          hlen htail_ne
        have hfacts_p := occList_facts k (rest.filter (fun x => x != w))
          hlen p hp
        have hc2 : rest.count w + 1 < (rest.filter (fun x => x != w)).count p.1 := by
          rw [← hfacts_p.1]
          omega
        have hpmax := count_le_maxCount (rest.filter (fun x => x != w))
          p.1 hfacts_p.2
        have hmax_eq : maxCount (w :: rest) =
            maxCount (rest.filter (fun x => x != w)) := by
          apply le_antisymm
          · apply maxCount_le
            intro x hx
            by_cases hxw : x = w
            · subst hxw
              rw [hcid]
              omega
            · have hxrest : x ∈ rest := (List.mem_cons.mp hx).resolve_left hxw
              have hxtail : x ∈ rest.filter (fun x => x != w) :=
                List.mem_filter.mpr ⟨hxrest, by simpa using hxw⟩
              rw [← (hcount_tail x hxtail).1]
              exact count_le_maxCount _ x hxtail
          · apply maxCount_le
            intro x hx
            rw [(hcount_tail x hx).1]
            exact count_le_maxCount (w :: rest) x
              (by simp [(List.mem_filter.mp hx).1])
        refine ⟨r, ?_, ?_, ?_⟩
        · rw [hocc]
          simp only [pyMaxCountKey]
          rcases hoccT : occList (rest.filter (fun x => x != w))
            with _ | ⟨hd, tl⟩
          · rw [hoccT] at hp
            simp at hp
          · rw [hoccT] at hr1
            simp only [pyMaxCountKey] at hr1
            simp only [List.foldl_cons]
            by_cases hh : hd.2 > rest.count w + 1
            · rw [show pick (w, rest.count w + 1) hd = hd from if_pos hh]
              exact hr1
            · rw [show pick (w, rest.count w + 1) hd = (w, rest.count w + 1)
                from if_neg hh]
              have hz : ∃ z ∈ tl, (w, rest.count w + 1).2 < z.2 := by
                rcases List.mem_cons.mp (hoccT ▸ hp) with h2 | h2
                · exfalso
                  rw [h2] at hpc
                  omega
                · exact ⟨p, h2, by simpa using hpc⟩
              rw [foldl_pick_absorb tl (w, rest.count w + 1) hd
                (by omega) hz]
              exact hr1
        · have hcfalse : ((w :: rest).count w == maxCount (w :: rest)) = false := by
            rw [hcid, hmax_eq]
            simp only [beq_eq_false_iff_ne, ne_eq]
            omega
          rw [List.find?_cons]
          simp only [hcfalse]
          rw [find?_filter_ne rest w _ hcfalse]
          rw [find?_congr_pred (rest.filter (fun x => x != w)) _
            (fun x => (rest.filter (fun x => x != w)).count x ==
              maxCount (rest.filter (fun x => x != w)))
            (fun x hx => by rw [← (hcount_tail x hx).1, hmax_eq])]
          exact hr2
        · have : r ∈ rest := (List.mem_filter.mp hr3).1
          simp [this]

/-- A successful weapon lookup returns a record of the reference data. -/
lemma get_weapon_mem (W : List Weapon) (name uuid : Option String)
    (wrec : Weapon) (h : get_weapon W name uuid = some wrec) : wrec ∈ W := by
  unfold get_weapon at h
  rcases name with _ | n
  · rcases uuid with _ | u
    · exact Option.noConfusion h
    · rcases hf : W.find? (fun w => w.uuid == pyLower u) with _ | q <;>
        simp only [hf] at h
      · exact List.mem_of_find?_eq_some h
      · injection h with h2
        rw [← h2]
        exact List.mem_of_find?_eq_some hf
  · rcases hf : W.find? (fun w => w.displayName == pyTitle n) with _ | q <;>
      simp only [hf] at h
    · exact List.mem_of_find?_eq_some h
    · injection h with h2
      rw [← h2]
      exact List.mem_of_find?_eq_some hf

/-- C9. Under reference data holding a Vandal entry and no weapon named
"Unknown" (both true of the real data), the Main-Weapon Classifier succeeds,
returns the sentinel "Unknown" exactly when the player recorded zero kills,
and otherwise agrees with its specification: the display name of the weapon
with the plurality of the player's kills, ties broken by the first weapon
reaching the maximum count in iteration order.  Determinism holds because
the embedding is a pure function of the match and player. -/
theorem get_main_weapon_matches_spec (W : List Weapon) (m : MatchRec)
    (user : String) (v : Weapon) (hv : v ∈ W) (hvn : v.displayName = "Vandal")
    (hunk : ∀ w ∈ W, w.displayName ≠ "Unknown") :
    ∃ r, get_main_weapon W m user = some r
      ∧ (r = "Unknown" ↔ m.kills.filter (fun k => k.killer == user) = [])
      ∧ get_main_weapon W m user = spec_main_weapon W m user := by
  rcases hker : m.kills.filter (fun k => k.killer == user) with _ | ⟨k0, krest⟩
  · refine ⟨"Unknown", ?_, ⟨fun _ => hker, fun _ => rfl⟩, ?_⟩
    · simp only [get_main_weapon, hker, List.foldl_nil]
    · simp only [get_main_weapon, spec_main_weapon, hker, List.foldl_nil,
        List.map_nil]
  · obtain ⟨pid, hPy, hFind, hMem⟩ := pyMax_eq_specFind
      (k0.damageItem :: krest.map (fun k => k.damageItem)).length
      (k0.damageItem :: krest.map (fun k => k.damageItem)) le_rfl (by simp)
    obtain ⟨wrec, hwrec⟩ := Option.isSome_iff_exists.mp
      (get_weapon_uuid_isSome W v hv hvn pid)
    have hwmem : wrec ∈ W := get_weapon_mem W none (some pid) wrec hwrec
    have hcl : (k0 :: krest).foldl (fun acc k => bump acc k.damageItem) [] =
        occList (k0.damageItem :: krest.map (fun k => k.damageItem)) := by
      rw [← List.foldl_map, List.map_cons]
      exact foldl_bump_eq_occList
        (k0.damageItem :: krest.map (fun k => k.damageItem)).length _ le_rfl
    have hgm : get_main_weapon W m user = some wrec.displayName := by
      simp only [get_main_weapon, hker, hcl]
      rcases hW : occList (k0.damageItem :: krest.map (fun k => k.damageItem))
        with _ | ⟨a, b⟩
      · rw [hW] at hPy
        exact Option.noConfusion hPy
      · rw [hW] at hPy
        simp only [hW, hPy, hwrec]
        rfl
    have hsp : spec_main_weapon W m user = some wrec.displayName := by
      simp only [spec_main_weapon, hker, List.map_cons]
      simp only [hFind, hwrec]
      rfl
    refine ⟨wrec.displayName, hgm, ?_, by rw [hgm, hsp]⟩
    constructor
    · intro habs
      exact absurd habs (hunk wrec hwmem)
    · intro habs
      rw [hker] at habs
      exact List.noConfusion habs

/-- Witness for C9 on the concrete match `M5`: player C's main weapon. -/
theorem get_main_weapon_matches_spec_witness :
    ∃ r, get_main_weapon W0 M5 "C" = some r
      ∧ (r = "Unknown" ↔ M5.kills.filter (fun k => k.killer == "C") = [])
      ∧ get_main_weapon W0 M5 "C" = spec_main_weapon W0 M5 "C" :=
  get_main_weapon_matches_spec W0 M5 "C" ⟨"w-van", "Vandal"⟩ (by decide) rfl
    (by decide)

/-! ## Monotonicity/min-gap repair (C4) -/

/-- Validity of an upward-nudged table, given its below-gap was deficient by
at most one and its above-gap is certified. -/
lemma validMap_update_up (d t : Int) (m : EloMap)
    (hgap : ∀ u, MIN_TIER ≤ u → u < MAX_TIER → u ≠ t - 1 → d ≤ m (u + 1) - m u)
    (hexc : MIN_TIER ≤ t - 1 → d - 1 ≤ m t - m (t - 1))
    (habove : t < MAX_TIER → d ≤ m (t + 1) - (m t + 1)) :
    validMap d (eupdate m t (m t + 1)) := by
  intro u h3u h27u
  simp only [eupdate]
  by_cases hut : u = t
  · subst hut
    rw [if_neg (by omega), if_pos rfl]
    exact habove h27u
  · by_cases hut1 : u + 1 = t
    · rw [if_pos hut1, if_neg hut]
      have hx := hexc (by omega)
      have hteq : t - 1 = u := by omega
      rw [hteq] at hx
      have hmu : m (u + 1) = m t := by rw [hut1]
      omega
    · rw [if_neg hut1, if_neg hut]
      exact hgap u h3u h27u (by omega)

/-- Validity of a downward-nudged table, given its above-gap was deficient by
at most one and its below-gap is certified. -/
lemma validMap_update_down (d t : Int) (m : EloMap)
    (hgap : ∀ u, MIN_TIER ≤ u → u < MAX_TIER → u ≠ t → d ≤ m (u + 1) - m u)
    (hexc : t < MAX_TIER → d - 1 ≤ m (t + 1) - m t)
    (hbelow : MIN_TIER ≤ t - 1 → d ≤ (m t - 1) - m (t - 1)) :
    validMap d (eupdate m t (m t - 1)) := by
  intro u h3u h27u
  simp only [eupdate]
  by_cases hut : u = t
  · subst hut
    rw [if_neg (by omega), if_pos rfl]
    have := hexc h27u
    omega
  · by_cases hut1 : u + 1 = t
    · rw [if_pos hut1, if_neg hut]
      have hx := hbelow (by omega)
      have hteq : t - 1 = u := by omega
      rw [hteq] at hx
      have hmu : m (u + 1) = m t := by rw [hut1]
      omega
    · rw [if_neg hut1, if_neg hut]
      exact hgap u h3u h27u hut

/-- An upward repair from a table whose only deficient gap (by at most one)
sits directly below the nudged tier yields a valid table. -/
lemma adjust_up_valid (d : Int) : ∀ (n : Nat) (t : Int) (m : EloMap),
    (MAX_TIER - t).toNat ≤ n → MIN_TIER ≤ t → t ≤ MAX_TIER →
    (∀ u : Int, MIN_TIER ≤ u → u < MAX_TIER → u ≠ t - 1 →
      d ≤ m (u + 1) - m u) →
    (MIN_TIER ≤ t - 1 → d - 1 ≤ m t - m (t - 1)) →
    validMap d (_adjust_elo t 1 d m) := by
  intro n
  induction n with
  | zero =>
    intro t m hn h3 h27 hgap hexc
    have ht27 : t = MAX_TIER := by
      simp only [MIN_TIER, MAX_TIER] at *
      omega
    rw [_adjust_elo,
      dif_neg (show ¬((1:Int) < 0 ∧ MIN_TIER < t ∧ m t - d ≤ m (t - 1)) from
        fun hq => absurd hq.1 (by norm_num)),
      dif_neg (show ¬(0 < (1:Int) ∧ t < MAX_TIER ∧
          eupdate m t (m t + 1) (t + 1) ≤ eupdate m t (m t + 1) t + d) from
        fun hq => absurd hq.2.1 (by omega))]
    exact validMap_update_up d t m hgap hexc (fun hlt => absurd hlt (by omega))
  | succ k ih =>
    intro t m hn h3 h27 hgap hexc
    rw [_adjust_elo,
      dif_neg (show ¬((1:Int) < 0 ∧ MIN_TIER < t ∧ m t - d ≤ m (t - 1)) from
        fun hq => absurd hq.1 (by norm_num))]
    have e1 : eupdate m t (m t + 1) (t + 1) = m (t + 1) := by
      simp [eupdate, show t + 1 ≠ t from by omega]
    have e2 : eupdate m t (m t + 1) t = m t + 1 := by
      simp [eupdate]
    by_cases hc : 0 < (1:Int) ∧ t < MAX_TIER ∧
        eupdate m t (m t + 1) (t + 1) ≤ eupdate m t (m t + 1) t + d
    · rw [dif_pos hc]
      have hlt : t < MAX_TIER := hc.2.1
      apply ih (t + 1) (eupdate m t (m t + 1))
        (by simp only [MAX_TIER] at *; omega) (by omega) (by omega)
      · intro u h3u h27u hne
        simp only [eupdate]
        by_cases hut : u = t
        · exfalso
          apply hne
          omega
        · by_cases hut1 : u + 1 = t
          · rw [if_pos hut1, if_neg hut]
            have hx := hexc (by omega)
            have hteq : t - 1 = u := by omega
            rw [hteq] at hx
            have hmu : m (u + 1) = m t := by rw [hut1]
            omega
          · rw [if_neg hut1, if_neg hut]
            exact hgap u h3u h27u (by omega)
      · intro h3t
        rw [show t + 1 - 1 = t from by omega, e1, e2]
        have := hgap t (by omega) hlt (by omega)
        omega
    · rw [dif_neg hc]
      apply validMap_update_up d t m hgap hexc
      intro hlt
      have hnle : ¬ (eupdate m t (m t + 1) (t + 1) ≤
          eupdate m t (m t + 1) t + d) :=
        fun hle => hc ⟨by norm_num, hlt, hle⟩
      rw [e1, e2] at hnle
      omega

/-- A downward repair from a table whose only deficient gap (by at most one)
sits directly above the nudged tier yields a valid table. -/
lemma adjust_down_valid (d : Int) : ∀ (n : Nat) (t : Int) (m : EloMap),
    (t - MIN_TIER).toNat ≤ n → MIN_TIER ≤ t → t ≤ MAX_TIER →
    (∀ u : Int, MIN_TIER ≤ u → u < MAX_TIER → u ≠ t →
      d ≤ m (u + 1) - m u) →
    (t < MAX_TIER → d - 1 ≤ m (t + 1) - m t) →
    validMap d (_adjust_elo t (-1) d m) := by
  intro n
  induction n with
  | zero =>
    intro t m hn h3 h27 hgap hexc
    have ht3 : t = MIN_TIER := by
      simp only [MIN_TIER, MAX_TIER] at *
      omega
    rw [_adjust_elo,
      dif_neg (show ¬(0 < (-1:Int) ∧ t < MAX_TIER ∧
          eupdate m t (m t + -1) (t + 1) ≤ eupdate m t (m t + -1) t + d) from
        fun hq => absurd hq.1 (by norm_num)),
      dif_neg (show ¬((-1:Int) < 0 ∧ MIN_TIER < t ∧ m t - d ≤ m (t - 1)) from
        fun hq => absurd hq.2.1 (by omega))]
    have heq : eupdate m t (m t + -1) = eupdate m t (m t - 1) := by
      funext u
      simp [eupdate]
      split <;> omega
    rw [heq]
    exact validMap_update_down d t m hgap hexc
      (fun h3t => absurd h3t (by omega))
  | succ k ih =>
    intro t m hn h3 h27 hgap hexc
    rw [_adjust_elo,
      dif_neg (show ¬(0 < (-1:Int) ∧ t < MAX_TIER ∧
          eupdate m t (m t + -1) (t + 1) ≤ eupdate m t (m t + -1) t + d) from
        fun hq => absurd hq.1 (by norm_num))]
    have heq : eupdate m t (m t + -1) = eupdate m t (m t - 1) := by
      funext u
      simp [eupdate]
      split <;> omega
    rw [heq]
    by_cases hc : (-1:Int) < 0 ∧ MIN_TIER < t ∧ m t - d ≤ m (t - 1)
    · rw [dif_pos hc]
      have hgt : MIN_TIER < t := hc.2.1
      apply ih (t - 1) (eupdate m t (m t - 1))
        (by simp only [MIN_TIER] at *; omega) (by omega) (by omega)
      · intro u h3u h27u hne
        simp only [eupdate]
        by_cases hut : u = t
        · subst hut
          rw [if_neg (by omega), if_pos rfl]
          have := hexc h27u
          omega
        · by_cases hut1 : u + 1 = t
          · exfalso
            apply hne
            omega
          · rw [if_neg hut1, if_neg hut]
            exact hgap u h3u h27u hut
      · intro hlt
        rw [show t - 1 + 1 = t from by omega]
        simp only [eupdate, if_true]
        rw [if_neg (show ¬ (t - 1 = t) from by omega)]
        have := hgap (t - 1) (by omega) (by omega) (by omega)
        rw [show t - 1 + 1 = t from by omega] at this
        omega
    · rw [dif_neg hc]
      apply validMap_update_down d t m hgap hexc
      intro h3t
      have hnle : ¬ (m t - d ≤ m (t - 1)) :=
        fun hle => hc ⟨by norm_num, by omega, hle⟩
      omega

/-- C4. A candidate Rating Table produced by the nudge-with-monotonicity-
repair step from a table satisfying the minimum-gap invariant satisfies it
again, for any in-domain tier and a nudge of plus or minus one unit; hence
every candidate table the Calibration Search builds (its nudges are exactly
plus or minus one unit) satisfies the invariant. -/
theorem adjust_elo_preserves_min_gap (d : Int) (m : EloMap) (t a : Int)
    (hmono : validMap d m) (ht1 : MIN_TIER ≤ t) (ht2 : t ≤ MAX_TIER)
    (ha : a = 1 ∨ a = -1) : validMap d (_adjust_elo t a d m) := by
  rcases ha with rfl | rfl
  · exact adjust_up_valid d (MAX_TIER - t).toNat t m le_rfl ht1 ht2
      (fun u h3u h27u _ => hmono u h3u h27u)
      (fun h3t => by
        have := hmono (t - 1) h3t (by simp only [MIN_TIER, MAX_TIER] at *; omega)
        rw [show t - 1 + 1 = t from by omega] at this
        omega)
  · exact adjust_down_valid d (t - MIN_TIER).toNat t m le_rfl ht1 ht2
      (fun u h3u h27u _ => hmono u h3u h27u)
      (fun hlt => by
        have := hmono t ht1 hlt
        omega)

/-- Witness for C4: nudging tier 12 of the seed table up by one unit (the
cascade ripples up to tier 21) preserves the minimum-gap invariant. -/
theorem adjust_elo_preserves_min_gap_witness :
    validMap 5 (_adjust_elo 12 1 5 global_elo_map) :=
  adjust_elo_preserves_min_gap 5 global_elo_map 12 1
    (by
      intro u h3 h27
      simp only [MIN_TIER] at h3
      simp only [MAX_TIER] at h27
      interval_cases u <;> decide)
    (by decide) (by decide) (Or.inl rfl)

/-! ## Per-Tier Bias Aggregator against the claim (C3) -/

/-- The aggregator's loop accumulates exactly the sum of per-match means. -/
lemma calibration_score_go_eq (W : List Weapon) (e : Int → Int → Rat)
    (emap : EloMap) (tier : Int) (weapon : String) (excl : List String)
    (ms : List MatchRec) : ∀ acc : Rat,
    calibration_score_go W e emap tier weapon excl ms acc =
      match spec_sum_of_means W e emap tier weapon excl ms with
      | none => none
      | some s => some (acc + s) := by
  induction ms with
  | nil =>
    intro acc
    simp [calibration_score_go, spec_sum_of_means]
  | cons m rest ih =>
    intro acc
    simp only [calibration_score_go, spec_sum_of_means, match_contrib]
    rcases hq : qualifying_players W m tier weapon excl m.players with _ | ps
    · rfl
    · simp only []
      by_cases hlen : ps.length < 2
      · rw [if_pos hlen, if_pos hlen, ih acc]
        rcases hs : spec_sum_of_means W e emap tier weapon excl rest
          with _ | s
        · rfl
        · simp only []
          rw [show acc + s = acc + (0 + s) from by ring]
      · rw [if_neg hlen, if_neg hlen]
        rcases hg : sum_gains W e m emap excl (get_tier_elo tier emap) ps 0
          with _ | sg
        · rfl
        · simp only []
          rw [ih (acc + sg / (ps.length : Rat))]
          rcases hs : spec_sum_of_means W e emap tier weapon excl rest
            with _ | s
          · rfl
          · simp only []
            rw [show acc + sg / (ps.length : Rat) + s =
              acc + (sg / (ps.length : Rat) + s) from by ring]

/-- C3 (amended). The Per-Tier Bias Aggregator returns the sum, over the
matches of the sub-corpus with at least two qualifying players, of the mean
rating gain of each match's qualifying players (matches with fewer than two
such players are skipped entirely, and the result is 0 when no qualifying
matches exist) — not the mean across all qualifying players of the corpus. -/
theorem calibration_score_eq_sum_of_match_means (W : List Weapon)
    (e : Int → Int → Rat) (ms : List MatchRec) (emap : EloMap) (tier : Int)
    (weapon : String) (excl : List String) :
    _calibration_score W e ms emap tier weapon excl =
      spec_sum_of_means W e emap tier weapon excl ms := by
  rw [_calibration_score, calibration_score_go_eq]
  rcases hs : spec_sum_of_means W e emap tier weapon excl ms with _ | s
  · rfl
  · simp

/-- Counterexample for C3 as stated: on the two-match corpus `[M5, M5]` the
aggregator returns 1/3 — the sum of the two per-match means — while the mean
across all four qualifying players is 1/6. -/
theorem calibration_score_not_global_mean_counterexample :
    _calibration_score W5 expC [M5, M5] global_elo_map 12 "Vandal" [] =
      some (1/3)
    ∧ spec_global_mean W5 expC [M5, M5] global_elo_map 12 "Vandal" [] =
      some (1/6)
    ∧ ¬ ((1 : Rat)/3 = 1/6) :=
  ⟨by with_unfolding_all rfl, by with_unfolding_all rfl,
   by with_unfolding_all decide⟩

/-! ## Calibration search acceptance and non-termination (C5) -/

/-- C5 (amended). The Calibration Search adopts a candidate only when its
total bias is strictly smaller than the current `best_score` (otherwise the
loop stops), so the accepted `best_score` values strictly decrease across
iterations.  The decrements may however shrink indefinitely, so the search
need not terminate (see the non-termination counterexample). -/
theorem calib_step_accepts_only_strict_improvement (W : List Weapon)
    (e : Int → Int → Rat) (ms : List MatchRec) (excl : List String)
    (scores0 : List (Int × Rat)) (s s2 : CalState)
    (h : calib_step W e ms excl scores0 s = some (Sum.inl s2)) :
    s2.best_score < s.best_score := by
  simp only [calib_step] at h
  rcases hb : build_candidates W e ms excl scores0 s.best_map tierDomain
    with _ | tests <;> simp only [hb] at h
  · exact Option.noConfusion h
  rcases hm : pyMinAbsKey tests with _ | ⟨t, tot, amt⟩ <;>
    simp only [hm] at h
  · exact Option.noConfusion h
  by_cases hcmp : s.best_score ≤ tot
  · rw [if_pos hcmp] at h
    simp at h
  · rw [if_neg hcmp] at h
    injection h with h2
    injection h2 with h3
    rw [← h3]
    exact lt_of_not_le hcmp

/-- The rating table left of a downward repair is untouched above the
nudged tier. -/
lemma adjust_down_above : ∀ (n : Nat) (t d : Int) (m : EloMap) (u : Int),
    (t - MIN_TIER).toNat ≤ n → t < u → _adjust_elo t (-1) d m u = m u := by
  intro n
  induction n with
  | zero =>
    intro t d m u hn htu
    rw [_adjust_elo,
      dif_neg (show ¬(0 < (-1:Int) ∧ t < MAX_TIER ∧
          eupdate m t (m t + -1) (t + 1) ≤ eupdate m t (m t + -1) t + d) from
        fun hq => absurd hq.1 (by norm_num)),
      dif_neg (show ¬((-1:Int) < 0 ∧ MIN_TIER < t ∧ m t - d ≤ m (t - 1)) from
        fun hq => absurd hq.2.1 (by
          simp only [MIN_TIER] at *
          omega))]
    simp [eupdate, show u ≠ t from by omega]
  | succ k ih =>
    intro t d m u hn htu
    rw [_adjust_elo,
      dif_neg (show ¬(0 < (-1:Int) ∧ t < MAX_TIER ∧
          eupdate m t (m t + -1) (t + 1) ≤ eupdate m t (m t + -1) t + d) from
        fun hq => absurd hq.1 (by norm_num))]
    by_cases hc : (-1:Int) < 0 ∧ MIN_TIER < t ∧ m t - d ≤ m (t - 1)
    · rw [dif_pos hc]
      rw [ih (t - 1) d (eupdate m t (m t + -1)) u
        (by simp only [MIN_TIER] at *; omega) (by omega)]
      simp [eupdate, show u ≠ t from by omega]
    · rw [dif_neg hc]
      simp [eupdate, show u ≠ t from by omega]

/-- A downward repair decrements the nudged tier's own rating by one. -/
lemma adjust_down_self (t d : Int) (m : EloMap) :
    _adjust_elo t (-1) d m t = m t - 1 := by
  rw [_adjust_elo,
    dif_neg (show ¬(0 < (-1:Int) ∧ t < MAX_TIER ∧
        eupdate m t (m t + -1) (t + 1) ≤ eupdate m t (m t + -1) t + d) from
      fun hq => absurd hq.1 (by norm_num))]
  by_cases hc : (-1:Int) < 0 ∧ MIN_TIER < t ∧ m t - d ≤ m (t - 1)
  · rw [dif_pos hc]
    rw [adjust_down_above (t - 1 - MIN_TIER).toNat (t - 1) d
      (eupdate m t (m t + -1)) t le_rfl (by omega)]
    simp [eupdate]
    omega
  · rw [dif_neg hc]
    simp [eupdate]
    omega

/-- An expected score of one half between equal ratings. -/
lemma expFn5_refl (a : Int) : expFn5 a a = 1/2 := by
  simp [expFn5]

/-- The expected score against a strictly stronger opponent. -/
lemma expFn5_gap (a b : Int) (h : a < b) :
    expFn5 a b = 1 / (2 * (((b - a : Int) : Rat) + 1)) := by
  simp [expFn5, show ¬ (a = b) from by omega, h]

/-- Rating gain of player A in the C5 corpus: one kill and one death against
tier-12 opposition. -/
lemma c5_gainA (e : Int → Int → Rat) (map : EloMap) (i : Int) :
    ∃ g, elo_gain_for_match_for_user W5 e M5 "A" map (some i) [] =
        some (g, M5) ∧ g = 1 - (e i (map 12) + e i (map 12)) := by
  refine ⟨_, rfl, ?_⟩
  simp [elo_elo]

/-- Rating gain of player B in the C5 corpus: one kill and one death against
tier-12 opposition plus one death to the tier-13 player. -/
lemma c5_gainB (e : Int → Int → Rat) (map : EloMap) (i : Int) :
    ∃ g, elo_gain_for_match_for_user W5 e M5 "B" map (some i) [] =
        some (g, M5) ∧
      g = 1 - (e i (map 12) + e i (map 12) + e i (map 13)) := by
  refine ⟨_, rfl, ?_⟩
  simp [elo_elo]

/-- The tier-12 calibration score of the C5 corpus under any table with the
minimum gap between tiers 12 and 13. -/
lemma c5_score12 (map : EloMap) (hd : 5 ≤ map 13 - map 12) :
    _calibration_score W5 expFn5 [M5] map 12 "Vandal" [] =
      some (-(c5f (map 13 - map 12))) := by
  obtain ⟨gA, hgA, hA2⟩ := c5_gainA expFn5 map (map 12)
  obtain ⟨gB, hgB, hB2⟩ := c5_gainB expFn5 map (map 12)
  have hq : qualifying_players W5 M5 12 "Vandal" [] M5.players =
      some [⟨"A", some 12⟩, ⟨"B", some 12⟩] := rfl
  have hge : get_tier_elo 12 map = some (map 12) := rfl
  simp only [_calibration_score, calibration_score_go, hq, hge, sum_gains,
    hgA, hgB]
  rw [if_neg (by norm_num)]
  rw [hA2, hB2, expFn5_refl, expFn5_gap (map 12) (map 13) (by omega)]
  have hpos : (0 : Rat) < ((map 13 - map 12 : Int) : Rat) + 1 := by
    have : (5 : Rat) ≤ ((map 13 - map 12 : Int) : Rat) := by
      exact_mod_cast hd
    linarith
  rw [Option.some.injEq, c5f]
  field_simp
  ring

/-- Python `abs` of a negated positive rational. -/
lemma pyAbs_neg (q : Rat) (h : 0 < q) : pyAbs (-q) = q := by
  unfold pyAbs
  rw [if_pos (by linarith)]
  ring

/-- The total bias function of the C5 corpus is positive at admissible gaps. -/
lemma c5f_pos (d : Int) (hd : 0 ≤ d) : 0 < c5f d := by
  unfold c5f
  have h0 : (0:Rat) ≤ (d : Rat) := by exact_mod_cast hd
  positivity

/-- The total bias of the C5 corpus strictly shrinks as the gap widens. -/
lemma c5f_strict (d : Int) (hd : 0 ≤ d) : c5f (d + 1) < c5f d := by
  unfold c5f
  have h0 : (0:Rat) ≤ (d : Rat) := by exact_mod_cast hd
  have h1 : (0:Rat) < 4 * ((d : Rat) + 1) := by linarith
  have h2 : 4 * ((d : Rat) + 1) < 4 * (((d + 1 : Int) : Rat) + 1) := by
    push_cast
    linarith
  exact one_div_lt_one_div_of_lt h1 h2

/-- Shape of the per-tier score dict of the C5 corpus: every tier except 12
scores zero, independently of the rating table. -/
lemma c5_tier_scores_shape (map : EloMap) :
    tier_scores W5 expFn5 [M5] map [] tierDomain =
      match _calibration_score W5 expFn5 [M5] map 12 "Vandal" [] with
      | none => none
      | some s12 =>
        some [(3, 0), (4, 0), (5, 0), (6, 0), (7, 0), (8, 0), (9, 0),
          (10, 0), (11, 0), (12, s12), (13, 0), (14, 0), (15, 0), (16, 0),
          (17, 0), (18, 0), (19, 0), (20, 0), (21, 0), (22, 0), (23, 0),
          (24, 0), (25, 0), (26, 0), (27, 0)] := rfl

/-- Full table score of the C5 corpus under any table with at least the
minimum gap between tiers 12 and 13. -/
lemma c5_score_all (map : EloMap) (hd : 5 ≤ map 13 - map 12) :
    _score_all_tiers W5 expFn5 [M5] map [] =
      some ⟨c5f (map 13 - map 12),
        [(3, 0), (4, 0), (5, 0), (6, 0), (7, 0), (8, 0), (9, 0),
         (10, 0), (11, 0), (12, -(c5f (map 13 - map 12))), (13, 0), (14, 0),
         (15, 0), (16, 0), (17, 0), (18, 0), (19, 0), (20, 0), (21, 0),
         (22, 0), (23, 0), (24, 0), (25, 0), (26, 0), (27, 0)]⟩ := by
  simp only [_score_all_tiers, c5_tier_scores_shape, c5_score12 map hd]
  rw [Option.some.injEq]
  have hpy : pyAbs (-(c5f (map 13 - map 12))) = c5f (map 13 - map 12) :=
    pyAbs_neg _ (c5f_pos _ (by omega))
  have hpy0 : pyAbs 0 = 0 := rfl
  simp only [List.map_cons, List.map_nil, List.sum_cons, List.sum_nil,
    hpy, hpy0]
  rw [ScoreTable.mk.injEq]
  exact ⟨by ring, rfl⟩

/-- Candidate building of the C5 run: only tier 12 (negative frozen score,
hence a downward nudge) produces a candidate. -/
lemma c5_build_shape (map : EloMap) :
    build_candidates W5 expFn5 [M5] [] c5scores0 map tierDomain =
      match _score_all_tiers W5 expFn5 [M5] (_adjust_elo 12 (-1) 5 map) [] with
      | none => none
      | some st => some [(12, st.total, -1)] := rfl

/-- One iteration of the C5 run: the single candidate strictly improves, is
adopted, and reestablishes the score-shape invariant with a gap one larger. -/
lemma c5_step (s : CalState) (hinv : 5 ≤ s.best_map 13 - s.best_map 12)
    (hsc : s.best_score = c5f (s.best_map 13 - s.best_map 12)) :
    calib_step W5 expFn5 [M5] [] c5scores0 s =
      some (Sum.inl ⟨_adjust_elo 12 (-1) 5 s.best_map,
        c5f ((_adjust_elo 12 (-1) 5 s.best_map) 13 -
          (_adjust_elo 12 (-1) 5 s.best_map) 12)⟩) ∧
    5 ≤ (_adjust_elo 12 (-1) 5 s.best_map) 13 -
        (_adjust_elo 12 (-1) 5 s.best_map) 12 := by
  have h13 : (_adjust_elo 12 (-1) 5 s.best_map) 13 = s.best_map 13 :=
    adjust_down_above (12 - MIN_TIER).toNat 12 5 s.best_map 13 le_rfl
      (by norm_num)
  have h12 : (_adjust_elo 12 (-1) 5 s.best_map) 12 = s.best_map 12 - 1 :=
    adjust_down_self 12 5 s.best_map
  have hd' : 5 ≤ (_adjust_elo 12 (-1) 5 s.best_map) 13 -
      (_adjust_elo 12 (-1) 5 s.best_map) 12 := by
    rw [h13, h12]
    omega
  have harg : (_adjust_elo 12 (-1) 5 s.best_map) 13 -
      (_adjust_elo 12 (-1) 5 s.best_map) 12 =
      s.best_map 13 - s.best_map 12 + 1 := by
    rw [h13, h12]
    ring
  refine ⟨?_, hd'⟩
  simp only [calib_step, c5_build_shape, c5_score_all _ hd']
  simp only [pyMinAbsKey, List.foldl_nil]
  rw [if_neg (by
    rw [hsc, harg]
    have := c5f_strict (s.best_map 13 - s.best_map 12) (by omega)
    linarith)]

/-- The C5 run never settles: every iteration strictly improves. -/
lemma c5_loop_never_settles : ∀ (fuel : Nat) (s : CalState),
    5 ≤ s.best_map 13 - s.best_map 12 →
    s.best_score = c5f (s.best_map 13 - s.best_map 12) →
    (calib_loop W5 expFn5 [M5] [] c5scores0 fuel s).isSettled = false := by
  intro fuel
  induction fuel with
  | zero => intro s _ _; rfl
  | succ k ih =>
    intro s hinv hsc
    obtain ⟨hstep, hd'⟩ := c5_step s hinv hsc
    simp only [calib_loop, hstep]
    exact ih _ hd' rfl

/-- Counterexample for C5 as stated: on the concrete finite corpus `[M5]`
with the admissible expected-score function `expFn5`, the Calibration
Search neither converges nor crashes under any iteration budget — each
iteration nudges tier 12 down by one unit and the total bias, equal to
`1 / (4 (gap + 1))`, strictly decreases forever without the loop's stopping
test ever firing. -/
theorem calibrate_elo_non_termination_counterexample :
    ¬ ∃ fuel : Nat,
      (calibrate_elo W5 expFn5 [M5] global_elo_map [] fuel).isSettled = true := by
  rintro ⟨fuel, hf⟩
  have hg : global_elo_map 13 - global_elo_map 12 = 5 := by decide
  have hsc : _score_all_tiers W5 expFn5 [M5] global_elo_map [] =
      some ⟨c5f 5, c5scores0⟩ := by
    have := c5_score_all global_elo_map (by rw [hg])
    rw [this, hg]
    have hentry : c5neg = -(c5f 5) := by
      unfold c5f
      with_unfolding_all decide
    rw [Option.some.injEq]
    unfold c5scores0
    rw [hentry]
  have hdm : dm_filter [M5] = [M5] := by decide
  simp only [calibrate_elo, hdm, hsc] at hf
  rw [c5_loop_never_settles fuel ⟨global_elo_map, c5f 5⟩
    (by decide) (by rw [hg])] at hf
  exact Bool.noConfusion hf

/-- Witness for the amended C5, applying it to the first accepted iteration
of the concrete C5 run (best score drops from 1/24 to 1/28). -/
theorem calib_step_accepts_only_strict_improvement_witness :
    (CalState.mk (_adjust_elo 12 (-1) 5 global_elo_map) (1/28)).best_score <
      (CalState.mk global_elo_map (1/24)).best_score :=
  calib_step_accepts_only_strict_improvement W5 expFn5 [M5] [] c5scores0
    ⟨global_elo_map, 1/24⟩ ⟨_adjust_elo 12 (-1) 5 global_elo_map, 1/28⟩
    (by
      have hg : global_elo_map 13 - global_elo_map 12 = 5 := by decide
      obtain ⟨hstep, _⟩ := c5_step ⟨global_elo_map, 1/24⟩
        (by decide) (by rw [hg]; norm_num [c5f])
      rw [hstep]
      have h13 : (_adjust_elo 12 (-1) 5 global_elo_map) 13 = global_elo_map 13 :=
        adjust_down_above (12 - MIN_TIER).toNat 12 5 global_elo_map 13 le_rfl
          (by norm_num)
      have h12 : (_adjust_elo 12 (-1) 5 global_elo_map) 12 =
          global_elo_map 12 - 1 :=
        adjust_down_self 12 5 global_elo_map
      have hg6 : global_elo_map 13 - (global_elo_map 12 - 1) = 6 := by decide
      rw [h13, h12, hg6]
      norm_num [c5f])
